import Mathlib

/-!
Shallow embedding of the nightreign-overlay-helper repository
(python sources under scripts/ and src/) together with proofs about
its version-tag mapping, pyproject rewriting, map-pattern scoring,
region scaling, and map-overlay state machine.

Python `int // int` on the nonnegative construct-type codes is modelled
by natural-number division; Python `int(float)` is modelled by rational
truncation toward zero (`pyInt`); Python floats are modelled by exact
rationals.
-/

set_option maxHeartbeats 1000000

namespace Nightreign

/-- Python `int(q)`: truncation of a rational toward zero. -/
def pyInt (q : ℚ) : ℤ := if q < 0 then ⌈q⌉ else ⌊q⌋

/-! ## src/ui/utils.py : process_region_to_adapt_scale -/

/-- Embedding of `process_region_to_adapt_scale` (src/ui/utils.py lines 86-94):
`new_w = int(int(w / scale) * scale)`, `new_h = int(int(h / scale) * scale)`,
`x` and `y` unchanged. -/
def process_region_to_adapt_scale (region : ℤ × ℤ × ℤ × ℤ) (scale : ℚ) :
    ℤ × ℤ × ℤ × ℤ :=
  let (x, y, w, h) := region
  let new_w := pyInt ((pyInt ((w : ℚ) / scale) : ℚ) * scale)
  let new_h := pyInt ((pyInt ((h : ℚ) / scale) : ℚ) * scale)
  (x, y, new_w, new_h)

/-! ## src/detector/map_detector.py : sub-icon table, base icons, scoring -/

/-- The `Attribute` enum (map_detector.py lines 94-98). -/
inductive PoiAttribute
  | FIRE
  | MAGIC
  | THUNDER
  | HOLY
deriving DecidableEq

/-- The `Condition` enum (map_detector.py lines 100-107). -/
inductive PoiCondition
  | BLEED
  | FROST
  | DEATH
  | FRENZY
  | CORRUPTION
  | POISON
  | SLEEP
deriving DecidableEq

/-- Values of `CTYPE_SUBICON_MAP` are `Attribute | Condition`. -/
inductive SubIcon
  | attr (a : PoiAttribute)
  | cond (c : PoiCondition)
deriving DecidableEq

open PoiAttribute PoiCondition in
/-- Embedding of the dict `CTYPE_SUBICON_MAP` (map_detector.py lines 113-164);
`CTYPE_SUBICON_MAP.get ctype` is `some`/`none` according to dict membership. -/
def CTYPE_SUBICON_MAP (ctype : ℕ) : Option SubIcon :=
  match ctype with
  | 30301 => some (.attr MAGIC)
  | 32101 => some (.attr FIRE)
  | 32102 => some (.attr THUNDER)
  | 32200 => some (.attr FIRE)
  | 32201 => some (.cond FRENZY)
  | 34001 => some (.cond BLEED)
  | 34002 => some (.cond FROST)
  | 34003 => some (.attr HOLY)
  | 34100 => some (.cond POISON)
  | 34101 => some (.cond POISON)
  | 34102 => some (.attr MAGIC)
  | 34103 => some (.cond FROST)
  | 34104 => some (.cond SLEEP)
  | 34200 => some (.cond DEATH)
  | 34300 => some (.attr THUNDER)
  | 38000 => some (.attr HOLY)
  | 38100 => some (.attr FIRE)
  | 50001 => some (.cond POISON)
  | 50011 => some (.cond POISON)
  | 50020 => some (.cond FROST)
  | 50030 => some (.cond SLEEP)
  | 50040 => some (.cond CORRUPTION)
  | 50050 => some (.cond FRENZY)
  | 50102 => some (.cond BLEED)
  | 50103 => some (.attr THUNDER)
  | 50104 => some (.attr HOLY)
  | 50113 => some (.attr FIRE)
  | 50114 => some (.cond POISON)
  | 50116 => some (.attr THUNDER)
  | 53580 => some (.attr FIRE)
  | 53590 => some (.attr MAGIC)
  | 53670 => some (.cond CORRUPTION)
  | 53680 => some (.attr HOLY)
  | 52500 => some (.cond BLEED)
  | 52520 => some (.cond POISON)
  | 52570 => some (.cond SLEEP)
  | 52550 => some (.attr MAGIC)
  | 52450 => some (.cond SLEEP)
  | 52460 => some (.attr THUNDER)
  | 52400 => some (.attr HOLY)
  | 52420 => some (.cond FROST)
  | _ => none

/-- Embedding of `has_same_base_icon` (map_detector.py lines 197-204).
Construct-type codes are nonnegative, so Python floor division `//` is
natural-number division. -/
def has_same_base_icon (ctype1 ctype2 : ℕ) : Bool :=
  if ctype1 / 10000 = 5 ∨ ctype2 / 10000 = 5 then
    decide (ctype1 / 100 = ctype2 / 100)
  else
    decide (ctype1 / 1000 = ctype2 / 1000)

/-- Embedding of the per-position (score, error) contribution of
`MapDetector._match_map_pattern` (map_detector.py lines 609-628).
The Python test `subicon or expect_subicon` is true exactly when at least
one of the two is not `None`, because `Enum` members are always truthy. -/
def score_error_contrib (ctype expect_ctype : ℕ) : ℕ × ℕ :=
  let subicon := CTYPE_SUBICON_MAP ctype
  let expect_subicon := CTYPE_SUBICON_MAP expect_ctype
  if ¬ (has_same_base_icon ctype expect_ctype = true) then
    if subicon = expect_subicon then (1, 3) else (0, 10)
  else
    if subicon = expect_subicon then (10, 0)
    else if subicon.isSome || expect_subicon.isSome then (0, 10)
    else (3, 1)

/-- A pattern's total (score, error) is accumulated over the sampled
positions (map_detector.py lines 603-628, the `for pos, ctype in
poi_result.items()` loop). -/
def pattern_score_error (pairs : List (ℕ × ℕ)) : ℕ × ℕ :=
  pairs.foldl
    (fun acc p =>
      let c := score_error_contrib p.1 p.2
      (acc.1 + c.1, acc.2 + c.2))
    (0, 0)

/-! ## src/detector/map_detector.py : ranking of scored patterns -/

/-- A scored pattern candidate, as in `MapPatternMatchResult` (pattern
identity abstracted to an id). -/
structure MapPatternMatchResult where
  pid : ℕ
  score : ℤ
  error : ℤ
deriving DecidableEq

/-- The comparison underlying `sorted(results, key=lambda x: (x.error,
-x.score))` (map_detector.py line 639): ascending error, ties broken by
descending score. -/
def match_rank_le (a b : MapPatternMatchResult) : Bool :=
  decide (a.error < b.error ∨ (a.error = b.error ∧ b.score ≤ a.score))

/-- Embedding of the ranking step of `MapDetector._match_map_pattern`
(map_detector.py lines 638-640): stable sort by `(error, -score)`, then
`[:topk]`. -/
def match_map_pattern_rank (results : List MapPatternMatchResult) (topk : ℕ) :
    List MapPatternMatchResult :=
  (results.mergeSort match_rank_le).take topk

/-! ## src/ui/map_overlay.py : opacity easing (timerEvent lines 320-330) -/

/-- Embedding of the per-tick opacity update of
`MapOverlayWidget.timerEvent` (map_overlay.py lines 320-330), with
`threshold = 0.01` and `step = 0.6`. -/
def opacity_tick (target real : ℚ) : ℚ :=
  let dlt := target - real
  if 1/100 < |dlt| then real + dlt * (6/10)
  else if 0 < |dlt| then target
  else real

/-- The real opacity after `n` timer ticks, starting from 0.0 with the
target held at 1.0. -/
def opacity_orbit : ℕ → ℚ
  | 0 => 0
  | n + 1 => opacity_tick 1 (opacity_orbit n)

/-! ## src/ui/utils.py and src/ui/map_overlay.py : overlay widget state -/

/-- A Qt screen as consulted by `get_qt_screen_by_mss_region`
(src/ui/utils.py lines 52-69): geometry origin, logical size, and device
pixel ratio. -/
structure Screen where
  sx : ℤ
  sy : ℤ
  sw : ℤ
  sh : ℤ
  ratio : ℚ

/-- The membership test of the loop in `get_qt_screen_by_mss_region`:
`sx <= x <= sx + int(sw*ratio) and sy <= y <= sy + int(sh*ratio)`. -/
def screen_contains (s : Screen) (x y : ℤ) : Bool :=
  let mss_sw := pyInt ((s.sw : ℚ) * s.ratio)
  let mss_sh := pyInt ((s.sh : ℚ) * s.ratio)
  decide (s.sx ≤ x ∧ x ≤ s.sx + mss_sw ∧ s.sy ≤ y ∧ y ≤ s.sy + mss_sh)

/-- Embedding of `get_qt_screen_by_mss_region` (src/ui/utils.py lines
52-69): the first screen containing (x, y), `none` modelling the raised
ValueError. -/
def get_qt_screen_by_mss_region (screens : List Screen) (x y : ℤ) :
    Option Screen :=
  screens.find? (fun s => screen_contains s x y)

/-- Embedding of `mss_region_to_qt_region` (src/ui/utils.py lines 72-82):
consumes all four of x, y, w, h. -/
def mss_region_to_qt_region (screens : List Screen)
    (region : ℤ × ℤ × ℤ × ℤ) : Option (ℤ × ℤ × ℤ × ℤ) :=
  let (x, y, w, h) := region
  match get_qt_screen_by_mss_region screens x y with
  | none => none
  | some s =>
    some (s.sx + pyInt (((x - s.sx : ℤ) : ℚ) / s.ratio),
          s.sy + pyInt (((y - s.sy : ℤ) : ℚ) / s.ratio),
          pyInt ((w : ℚ) / s.ratio),
          pyInt ((h : ℚ) / s.ratio))

/-- The mutable state of `MapOverlayWidget` relevant to the claims; images
are abstracted to identifiers. -/
structure MapOverlayState where
  geometry : ℤ × ℤ × ℤ × ℤ
  target_opacity : ℚ
  visible : Bool
  overlay_images : Option (List ℕ)
  map_pattern_idx : Option ℤ
  crystal_layout_idx : Option ℤ
  crystal_layout_imgs : List ℕ
  only_show_when_game_foreground : Bool
  is_game_foreground : Bool
  is_menu_opened : Bool
  is_setting_opened : Bool
  map_pattern_matching : Bool
  map_pattern_match_time : ℚ

/-- The `MapOverlayUIState` dataclass (map_overlay.py lines 23-39); every
field defaults to absent (`clear_image` defaults to `False`). -/
structure MapOverlayUIState where
  x : Option ℤ := none
  y : Option ℤ := none
  w : Option ℤ := none
  h : Option ℤ := none
  opacity : Option ℚ := none
  visible : Option Bool := none
  overlay_images : Option (List ℕ) := none
  display_crystal_layout : Option Bool := none
  clear_image : Bool := false
  map_pattern_matching : Option Bool := none
  map_pattern_match_time : Option ℚ := none
  only_show_when_game_foreground : Option Bool := none
  is_game_foreground : Option Bool := none
  is_menu_opened : Option Bool := none
  is_setting_opened : Option Bool := none

/-- Embedding of `update_overlay_images` (map_overlay.py lines 127-137):
a falsy (`None` or empty) image list is normalized to `None` and the
image box cleared; otherwise `overlay_images[map_pattern_idx]` is drawn,
which raises (modelled `.error`) when the index is `None` or out of the
range of Python list indexing. -/
def update_overlay_images (s : MapOverlayState) : Except Unit MapOverlayState :=
  match s.overlay_images with
  | none => .ok { s with overlay_images := none }
  | some [] => .ok { s with overlay_images := none }
  | some (img :: rest) =>
    match s.map_pattern_idx with
    | none => .error ()
    | some i =>
      if -(((img :: rest).length : ℤ)) ≤ i ∧ i < (img :: rest).length then .ok s
      else .error ()

/-- Embedding of `set_overlay_images` (map_overlay.py lines 122-125):
store the list, reset `map_pattern_idx` to 0, refresh. -/
def set_overlay_images (s : MapOverlayState) (imgs : Option (List ℕ)) :
    Except Unit MapOverlayState :=
  update_overlay_images { s with overlay_images := imgs, map_pattern_idx := some 0 }

/-- Embedding of `next_overlay_image` (map_overlay.py lines 139-144). -/
def next_overlay_image (s : MapOverlayState) : Except Unit MapOverlayState :=
  match s.visible, s.overlay_images with
  | true, some l =>
    (match s.map_pattern_idx with
     | none => .error ()
     | some i =>
       let i2 := if (l.length : ℤ) ≤ i + 1 then 0 else i + 1
       update_overlay_images { s with map_pattern_idx := some i2 })
  | _, _ => .ok s

/-- Embedding of `last_overlay_image` (map_overlay.py lines 146-151). -/
def last_overlay_image (s : MapOverlayState) : Except Unit MapOverlayState :=
  match s.visible, s.overlay_images with
  | true, some l =>
    (match s.map_pattern_idx with
     | none => .error ()
     | some i =>
       let i2 := if i - 1 < 0 then (l.length : ℤ) - 1 else i - 1
       update_overlay_images { s with map_pattern_idx := some i2 })
  | _, _ => .ok s

/-- Embedding of `update_crystal_layout` (map_overlay.py lines 222-232):
clears when the index is `None`, otherwise draws
`crystal_layout_imgs[idx]`, raising when the index is outside Python list
indexing range. -/
def update_crystal_layout (s : MapOverlayState) : Except Unit MapOverlayState :=
  match s.crystal_layout_idx with
  | none => .ok s
  | some i =>
    if -(s.crystal_layout_imgs.length : ℤ) ≤ i ∧ i < s.crystal_layout_imgs.length
    then .ok s else .error ()

/-- The `opacity` and `visible` updates of `update_ui_state`
(map_overlay.py lines 253-256). -/
def apply_opacity_visible (st : MapOverlayUIState) (s : MapOverlayState) :
    MapOverlayState :=
  let s1 := match st.opacity with
    | some o => { s with target_opacity := o }
    | none => s
  match st.visible with
  | some v => { s1 with visible := v }
  | none => s1

/-- The six plain-field updates of `update_ui_state` (map_overlay.py
lines 261-272). -/
def apply_flags (st : MapOverlayUIState) (s : MapOverlayState) :
    MapOverlayState :=
  let s1 := match st.only_show_when_game_foreground with
    | some b => { s with only_show_when_game_foreground := b }
    | none => s
  let s2 := match st.is_game_foreground with
    | some b => { s1 with is_game_foreground := b }
    | none => s1
  let s3 := match st.is_menu_opened with
    | some b => { s2 with is_menu_opened := b }
    | none => s2
  let s4 := match st.is_setting_opened with
    | some b => { s3 with is_setting_opened := b }
    | none => s3
  let s5 := match st.map_pattern_matching with
    | some b => { s4 with map_pattern_matching := b }
    | none => s4
  match st.map_pattern_match_time with
  | some t => { s5 with map_pattern_match_time := t }
  | none => s5

/-- The part of `update_ui_state` after the geometry step (map_overlay.py
lines 253-276), in source order. -/
def update_ui_state_rest (st : MapOverlayUIState) (s : MapOverlayState) :
    Except Unit MapOverlayState :=
  let s3 := apply_opacity_visible st s
  match (match st.overlay_images with
         | some imgs => set_overlay_images s3 (some imgs)
         | none => .ok s3) with
  | .error e => .error e
  | .ok s4 =>
    match (if st.clear_image then set_overlay_images s4 none else .ok s4) with
    | .error e => .error e
    | .ok s5 =>
      let s11 := apply_flags st s5
      match st.display_crystal_layout with
      | some b =>
        update_crystal_layout
          { s11 with crystal_layout_idx := if b then some 0 else none }
      | none => .ok s11

/-- Embedding of `MapOverlayWidget.update_ui_state` (map_overlay.py lines
249-276): the geometry is touched only under `if state.x is not None`, and
that branch feeds x, y, w, h to `mss_region_to_qt_region`; a `None` among
y, w, h there raises a TypeError (modelled `.error`), a region outside all
screens raises ValueError (modelled `.error`). -/
def update_ui_state (screens : List Screen) (st : MapOverlayUIState)
    (s0 : MapOverlayState) : Except Unit MapOverlayState :=
  match st.x with
  | none => update_ui_state_rest st s0
  | some x =>
    match st.y, st.w, st.h with
    | some y, some w, some h =>
      match mss_region_to_qt_region screens (x, y, w, h) with
      | some r => update_ui_state_rest st { s0 with geometry := r }
      | none => .error ()
    | _, _, _ => .error ()

/-- The patch passed by the constructor (map_overlay.py lines 114-119):
`w=10, h=10, opacity=0.0, visible=True` and no `x`. -/
def init_ui_patch : MapOverlayUIState :=
  { w := some 10, h := some 10, opacity := some (0 : ℚ), visible := some true }

/-- The paging invariant of the overlay-image state: a stored list is
non-empty and the page index is in range. -/
def overlay_inv (s : MapOverlayState) : Prop :=
  ∀ l, s.overlay_images = some l →
    l ≠ [] ∧ ∃ i, s.map_pattern_idx = some i ∧ 0 ≤ i ∧ i < l.length

/-- A concrete widget state with no overlay images. -/
def empty_overlay_state : MapOverlayState :=
  ⟨(0, 0, 0, 0), 1, true, none, none, none, [], false, false, false, false,
   false, 0⟩

/-- A concrete widget state holding two overlay images, on page 1. -/
def paged_overlay_state : MapOverlayState :=
  ⟨(0, 0, 0, 0), 1, true, some [3, 4], some 1, none, [], false, false, false,
   false, false, 0⟩

/-! ## scripts/ci_version.py : tag_to_pep440 -/

/-- ASCII model of the whitespace class used by `str.strip()` and the
regex class `\s` (space, tab, newline, carriage return, vertical tab,
form feed). -/
def isWSChar (c : Char) : Bool :=
  c == ' ' || c == '\t' || c == '\n' || c == '\r' || c == '\x0b' || c == '\x0c'

/-- Python `str.strip()`: drop whitespace from both ends. -/
def trimChars (l : List Char) : List Char :=
  ((l.dropWhile isWSChar).reverse.dropWhile isWSChar).reverse

/-- Python `str.startswith(pattern)` on character lists (pattern first). -/
def starts_with_chars : List Char → List Char → Bool
  | [], _ => true
  | _ :: _, [] => false
  | p :: ps, c :: cs => p == c && starts_with_chars ps cs

/-- The automaton of `re.fullmatch(r"\d+(?:\.\d+)*", s)` (ci_version.py
lines 31 and 39), ASCII digits: `inGroup` records whether the current
digit group already holds a digit. -/
def matchVer (inGroup : Bool) : List Char → Bool
  | [] => inGroup
  | c :: cs =>
    if c.isDigit then matchVer true cs
    else if c = '.' ∧ inGroup then matchVer false cs
    else false

/-- Case folding used to model `re.IGNORECASE` (ASCII). -/
def lcChar (c : Char) : Char := c.toLower

/-- The alternatives of the suffix regex
`(alpha|a|beta|b|rc|pre|preview|dev|post)\.?(\d+)` (ci_version.py lines
47-51), in the regex's order. -/
def tag_labels : List (List Char) :=
  ["alpha".data, "a".data, "beta".data, "b".data, "rc".data, "pre".data,
   "preview".data, "dev".data, "post".data]

/-- One alternative of the suffix regex: the label matched
case-insensitively, then an optional dot, then one or more digits
spanning the rest; returns the canonical (lowercase) label and the digit
string. -/
def label_num_match (lab : List Char) (s : List Char) :
    Option (List Char × List Char) :=
  if (s.take lab.length).map lcChar = lab then
    match s.drop lab.length with
    | '.' :: r => if r ≠ [] ∧ r.all Char.isDigit then some (lab, r) else none
    | r => if r ≠ [] ∧ r.all Char.isDigit then some (lab, r) else none
  else none

/-- `re.fullmatch` of the suffix regex: the first alternative whose full
match succeeds (regex backtracking tries them in order). -/
def suffix_label_num (s : List Char) : Option (List Char × List Char) :=
  tag_labels.findSome? (fun lab => label_num_match lab s)

/-- The preprocessing of `tag_to_pep440` (ci_version.py lines 19-21):
`tag.strip()` then `removeprefix("refs/tags/")`. -/
def strip_tag (tag : List Char) : List Char :=
  let t1 := trimChars tag
  if starts_with_chars "refs/tags/".data t1 then t1.drop 10 else t1

/-- Embedding of `tag_to_pep440` (ci_version.py lines 18-77). A raised
`VersionError` is `.error` with its message. -/
def tag_to_pep440 (tag : List Char) : Except (List Char) (List Char × Bool) :=
  let t2 := strip_tag tag
  if t2.head? ≠ some 'v' ∨ t2.length < 2 then
    .error "Tag must start with v".data
  else
    let raw := t2.drop 1
    if ¬ raw.contains '-' then
      if matchVer false raw then .ok (raw, false)
      else .error "Release tag must look like v digits".data
    else
      let base := raw.takeWhile (fun c => c ≠ '-')
      let suffix := (raw.dropWhile (fun c => c ≠ '-')).tail
      if ¬ matchVer false base then
        .error "Pre-release base must look like digits".data
      else
        match suffix_label_num suffix with
        | none => .error "Unsupported pre-release tag suffix".data
        | some (lab, num) =>
          if lab = "alpha".data ∨ lab = "a".data then
            .ok (base ++ "a".data ++ num, true)
          else if lab = "beta".data ∨ lab = "b".data then
            .ok (base ++ "b".data ++ num, true)
          else if lab = "rc".data then
            .ok (base ++ "rc".data ++ num, true)
          else if lab = "pre".data ∨ lab = "preview".data then
            .ok (base ++ "rc".data ++ num, true)
          else if lab = "dev".data then
            .ok (base ++ ".dev".data ++ num, true)
          else if lab = "post".data then
            .ok (base ++ ".post".data ++ num, true)
          else .error "Unhandled label".data

/-- The acceptance condition of `tag_to_pep440`, read off its success
path: after stripping, an optional `refs/tags/`, then `v`, then either a
digits-dot-digits release or a digits-dot-digits base with a supported
suffix. -/
def accepted_tag (tag : List Char) : Bool :=
  let t2 := strip_tag tag
  if t2.head? ≠ some 'v' ∨ t2.length < 2 then false
  else
    let raw := t2.drop 1
    if ¬ raw.contains '-' then matchVer false raw
    else
      matchVer false (raw.takeWhile (fun c => c ≠ '-')) &&
        (suffix_label_num ((raw.dropWhile (fun c => c ≠ '-')).tail)).isSome

/-- The tag prefix: `refs/tags/` when present, nothing otherwise. -/
def tagPre (p : Bool) : List Char := if p then "refs/tags/".data else []

/-! ## scripts/ci_version.py : update_pyproject_version and main -/

/-- A character ending a line (`\r` or `\n`). -/
def rn_char (c : Char) : Bool := c == '\r' || c == '\n'

/-- Python `str.splitlines(keepends=True)` for the terminators `\n`,
`\r\n` and `\r` (the exotic Unicode terminators are not modelled);
`acc` is the reversed pending line. -/
def split_keepends_aux (acc : List Char) : List Char → List (List Char)
  | [] => if acc = [] then [] else [acc.reverse]
  | '\r' :: '\n' :: cs => (acc.reverse ++ ['\r', '\n']) :: split_keepends_aux [] cs
  | '\n' :: cs => (acc.reverse ++ ['\n']) :: split_keepends_aux [] cs
  | '\r' :: cs => (acc.reverse ++ ['\r']) :: split_keepends_aux [] cs
  | c :: cs => split_keepends_aux (c :: acc) cs

/-- `text.splitlines(keepends=True)` (ci_version.py line 82). -/
def split_keepends (content : List Char) : List (List Char) :=
  split_keepends_aux [] content

/-- Python `line.rstrip('\r\n')` (ci_version.py line 95). -/
def rstrip_rn (l : List Char) : List Char :=
  (l.reverse.dropWhile rn_char).reverse

/-- The regex `_SECTION_RE = ^\s*\[([^\]]+)\]\s*$` applied with
`re.match` to a full line (ci_version.py lines 9 and 86): leading
whitespace, `[`, a non-empty name without `]`, `]`, then only whitespace
(which absorbs the line terminator). Returns the name group. -/
def section_name (line : List Char) : Option (List Char) :=
  match line.dropWhile isWSChar with
  | '[' :: rest =>
    let name := rest.takeWhile (fun c => c ≠ ']')
    match rest.dropWhile (fun c => c ≠ ']') with
    | ']' :: tl => if name ≠ [] ∧ tl.all isWSChar then some name else none
    | _ => none
  | _ => none

/-- The regex `_VERSION_LINE_RE =
^(\s*version\s*=\s*)"([^"]*)"(\s*)$` applied to a line already stripped
of its terminator (ci_version.py lines 11 and 96). Returns the groups
(prefix part, value, suffix part). -/
def version_line_parts (l : List Char) :
    Option (List Char × List Char × List Char) :=
  let p1 := l.takeWhile isWSChar
  let r1 := l.dropWhile isWSChar
  if starts_with_chars "version".data r1 then
    let r2 := r1.drop 7
    let p2 := r2.takeWhile isWSChar
    match r2.dropWhile isWSChar with
    | '=' :: r4 =>
      let p3 := r4.takeWhile isWSChar
      match r4.dropWhile isWSChar with
      | '\"' :: r6 =>
        let v := r6.takeWhile (fun c => c ≠ '\"')
        match r6.dropWhile (fun c => c ≠ '\"') with
        | '\"' :: tl =>
          if tl.all isWSChar then
            some (p1 ++ "version".data ++ p2 ++ '=' :: p3, v, tl)
          else none
        | _ => none
      | _ => none
    | _ => none
  else none

/-- The scanning loop of `update_pyproject_version` (ci_version.py lines
84-115) over the list of lines, carrying the `in_project` flag; returns
(changed?, resulting lines), `.error` for the final `raise`. -/
def upd_lines (newV : List Char) :
    Bool → List (List Char) → Except Unit (Bool × List (List Char))
  | _, [] => .error ()
  | inProj, l :: ls =>
    match section_name l with
    | some name =>
      match upd_lines newV (decide (trimChars name = "project".data)) ls with
      | .error e => .error e
      | .ok (b, ls2) => .ok (b, l :: ls2)
    | none =>
      if inProj then
        match version_line_parts (rstrip_rn l) with
        | some (pre, v, suf) =>
          if v = newV then .ok (false, l :: ls)
          else
            .ok (true,
              (pre ++ '\"' :: newV ++ '\"' :: (suf ++ l.drop (rstrip_rn l).length))
                :: ls)
        | none =>
          match upd_lines newV inProj ls with
          | .error e => .error e
          | .ok (b, ls2) => .ok (b, l :: ls2)
      else
        match upd_lines newV inProj ls with
        | .error e => .error e
        | .ok (b, ls2) => .ok (b, l :: ls2)

/-- The text-level core of `update_pyproject_version` (ci_version.py lines
82-110), acting on the already-decoded text `text = read_text(...)`:
`false` means unchanged (no write: the decoded text is returned as is),
`true` means the joined rewritten lines are the text handed to `write_text`. -/
def update_pyproject_text (content newV : List Char) :
    Except Unit (Bool × List Char) :=
  match upd_lines newV false (split_keepends content) with
  | .error e => .error e
  | .ok (b, ls) => .ok (b, ls.flatten)

/-- `Path.read_text` opens the file in text mode with `newline=None`
(universal newlines): every `\r\n` and every lone `\r` in the file is
translated to `\n` in the decoded text. -/
def universal_newlines : List Char → List Char
  | '\r' :: '\n' :: rest => '\n' :: universal_newlines rest
  | '\r' :: rest => '\n' :: universal_newlines rest
  | c :: rest => c :: universal_newlines rest
  | [] => []

/-- `Path.write_text` opens the file in text mode with `newline=None`:
every `\n` in the written text is translated to `os.linesep`. -/
def write_newlines (linesep : List Char) : List Char → List Char
  | '\n' :: rest => linesep ++ write_newlines linesep rest
  | c :: rest => c :: write_newlines linesep rest
  | [] => []

/-- `os.linesep` on the POSIX systems the CI script runs on, where
`write_text`'s translation of `\n` is the identity (on Windows it would
be `\r\n`). -/
def os_linesep : List Char := "\n".data

/-- Embedding of `update_pyproject_version` (ci_version.py lines 80-115)
at the level of file bytes: the content is decoded through
`read_text`'s universal-newline translation, the line loop runs on the
decoded text, and on the changed path the rewritten text goes back
through `write_text`'s `\n` → `os.linesep` translation; on the
unchanged path no write occurs, so the file keeps its original bytes. -/
def update_pyproject_version (content newV : List Char) :
    Except Unit (Bool × List Char) :=
  match update_pyproject_text (universal_newlines content) newV with
  | .error e => .error e
  | .ok (false, _) => .ok (false, content)
  | .ok (true, c2) => .ok (true, write_newlines os_linesep c2)

/-- Search mirroring the scan of `update_pyproject_version`: the index
and regex groups of the first `version = "..."` line inside the
`[project]` section. -/
def find_version_line :
    Bool → List (List Char) → Option (ℕ × List Char × List Char × List Char)
  | _, [] => none
  | inProj, l :: ls =>
    match section_name l with
    | some name =>
      match find_version_line (decide (trimChars name = "project".data)) ls with
      | some (i, r) => some (i + 1, r)
      | none => none
    | none =>
      if inProj then
        match version_line_parts (rstrip_rn l) with
        | some g => some (0, g)
        | none =>
          match find_version_line inProj ls with
          | some (i, r) => some (i + 1, r)
          | none => none
      else
        match find_version_line inProj ls with
        | some (i, r) => some (i + 1, r)
        | none => none

/-- The default (non-`--check`) path of `main` (ci_version.py lines
166-196): `tag_to_pep440` runs before any file access, so a rejected tag
leaves the file content untouched. Returns (exit outcome, file content
after the run). -/
def main_run (tag content : List Char) :
    Except (List Char) (List Char) × List Char :=
  match tag_to_pep440 tag with
  | .error e => (.error e, content)
  | .ok (v, _) =>
    match update_pyproject_version content v with
    | .error _ => (.error "Could not find project version".data, content)
    | .ok (_, c2) => (.ok v, c2)

end Nightreign

namespace Nightreign

/-! ## Helper lemmas -/

theorem opacity_tick_gap (x : ℚ) (h : 0 ≤ 1 - x) :
    opacity_tick 1 x =
      if 1/100 < 1 - x then x + (1 - x) * (6/10)
      else if 0 < 1 - x then 1 else x := by
  simp only [opacity_tick]
  rw [abs_of_nonneg h]

theorem opacity_tick_le_one (x : ℚ) (h : x ≤ 1) : opacity_tick 1 x ≤ 1 := by
  rw [opacity_tick_gap x (by linarith)]
  split_ifs with h1 h2 <;> linarith

theorem opacity_tick_gt (x : ℚ) (h : x < 1) : x < opacity_tick 1 x := by
  rw [opacity_tick_gap x (by linarith)]
  split_ifs with h1 h2
  · nlinarith
  · exact h
  · linarith

theorem opacity_tick_one : opacity_tick 1 1 = 1 := by
  simp only [opacity_tick]
  norm_num

theorem opacity_orbit_le_one (n : ℕ) : opacity_orbit n ≤ 1 := by
  induction n with
  | zero => norm_num [opacity_orbit]
  | succ k ih => exact opacity_tick_le_one _ ih

theorem opacity_orbit_seven : opacity_orbit 7 = 1 := by
  have h0 : opacity_orbit 0 = 0 := rfl
  have h1 : opacity_orbit 1 = 3/5 := by
    show opacity_tick 1 (opacity_orbit 0) = 3/5
    rw [h0, opacity_tick_gap _ (by norm_num)]; norm_num
  have h2 : opacity_orbit 2 = 21/25 := by
    show opacity_tick 1 (opacity_orbit 1) = 21/25
    rw [h1, opacity_tick_gap _ (by norm_num)]; norm_num
  have h3 : opacity_orbit 3 = 117/125 := by
    show opacity_tick 1 (opacity_orbit 2) = 117/125
    rw [h2, opacity_tick_gap _ (by norm_num)]; norm_num
  have h4 : opacity_orbit 4 = 609/625 := by
    show opacity_tick 1 (opacity_orbit 3) = 609/625
    rw [h3, opacity_tick_gap _ (by norm_num)]; norm_num
  have h5 : opacity_orbit 5 = 3093/3125 := by
    show opacity_tick 1 (opacity_orbit 4) = 3093/3125
    rw [h4, opacity_tick_gap _ (by norm_num)]; norm_num
  have h6 : opacity_orbit 6 = 15561/15625 := by
    show opacity_tick 1 (opacity_orbit 5) = 15561/15625
    rw [h5, opacity_tick_gap _ (by norm_num)]; norm_num
  show opacity_tick 1 (opacity_orbit 6) = 1
  rw [h6, opacity_tick_gap _ (by norm_num)]; norm_num

theorem match_rank_le_trans (a b c : MapPatternMatchResult)
    (hab : match_rank_le a b) (hbc : match_rank_le b c) : match_rank_le a c := by
  simp only [match_rank_le, decide_eq_true_eq] at *
  rcases hab with h | ⟨h, hs⟩ <;> rcases hbc with h2 | ⟨h2, hs2⟩
  · exact Or.inl (h.trans h2)
  · exact Or.inl (h2 ▸ h)
  · exact Or.inl (h ▸ h2)
  · exact Or.inr ⟨h.trans h2, hs2.trans hs⟩

theorem match_rank_le_total (a b : MapPatternMatchResult) :
    match_rank_le a b || match_rank_le b a := by
  simp only [match_rank_le, Bool.or_eq_true, decide_eq_true_eq]
  omega

/-! ## Claim theorems: C2, C3, C5, C6, C8 -/

/-- C2: at observed construct 34001 (sub-icon BLEED) against expected
34002 (sub-icon FROST) the base icons match and both sub-icons are
present and differ, yet the code contributes (score, error) = (0, 10),
not the (3, 1) the spec states: the `elif subicon or expect_subicon`
branch captures every pair of unequal sub-icons (enum members are
truthy), so the (3, 1) branch is unreachable. -/
theorem score_error_contrib_both_subicons_differ :
    has_same_base_icon 34001 34002 = true ∧
    CTYPE_SUBICON_MAP 34001 = some (.cond .BLEED) ∧
    CTYPE_SUBICON_MAP 34002 = some (.cond .FROST) ∧
    score_error_contrib 34001 34002 = (0, 10) ∧
    (∀ c e : ℕ, CTYPE_SUBICON_MAP c ≠ CTYPE_SUBICON_MAP e →
      (CTYPE_SUBICON_MAP c).isSome = true ∨ (CTYPE_SUBICON_MAP e).isSome = true) ∧
    pattern_score_error [(34001, 34002)] = (0, 10) := by
  refine ⟨by decide, by decide, by decide, by decide, ?_, by decide⟩
  intro c e h
  cases hc : CTYPE_SUBICON_MAP c <;> cases he : CTYPE_SUBICON_MAP e <;>
    simp_all

/-- Witness for the quantified conjunct of
`score_error_contrib_both_subicons_differ`. -/
theorem score_error_contrib_both_subicons_differ_witness :
    (CTYPE_SUBICON_MAP 34001).isSome = true ∨
      (CTYPE_SUBICON_MAP 34002).isSome = true :=
  score_error_contrib_both_subicons_differ.2.2.2.2.1 34001 34002 (by decide)

/-- C3 counterexample: the claim asserts `has_same_base_icon 53580 53590 =
false`, but both codes have leading three digits 535 (`53580 / 100 = 535 =
53590 / 100`), so the code returns `true`. -/
theorem has_same_base_icon_53580_53590 :
    has_same_base_icon 53580 53590 = true := by decide

/-- C3 amended: for a pair with a DLC-region code (a code whose quotient by
10000 is 5) the predicate is true exactly when the quotients by 100 (the
leading 3 digits of five-digit codes) agree; otherwise exactly when the
quotients by 1000 agree; and it is true on (53580, 53581), true on
(53580, 53590), true on (34001, 34002), false on (34001, 38000). -/
theorem has_same_base_icon_spec :
    (∀ c1 c2 : ℕ, (c1 / 10000 = 5 ∨ c2 / 10000 = 5) →
      (has_same_base_icon c1 c2 = true ↔ c1 / 100 = c2 / 100)) ∧
    (∀ c1 c2 : ℕ, ¬ (c1 / 10000 = 5 ∨ c2 / 10000 = 5) →
      (has_same_base_icon c1 c2 = true ↔ c1 / 1000 = c2 / 1000)) ∧
    has_same_base_icon 53580 53581 = true ∧
    has_same_base_icon 53580 53590 = true ∧
    has_same_base_icon 34001 34002 = true ∧
    has_same_base_icon 34001 38000 = false := by
  refine ⟨?_, ?_, by decide, by decide, by decide, by decide⟩ <;>
    intro c1 c2 h <;> simp [has_same_base_icon, h]

/-- Witness for `has_same_base_icon_spec`. -/
theorem has_same_base_icon_spec_witness :
    has_same_base_icon 53580 53581 = true ↔ 53580 / 100 = 53581 / 100 :=
  has_same_base_icon_spec.1 53580 53581 (by decide)

/-- C5: the ranking step returns the first `topk` elements of the input
sorted ascending by error with ties broken by descending score: the
output is a prefix of a sorted permutation of the input, every earlier
returned candidate has strictly smaller error or equal error and at
least as large a score as every later one, a lower-error candidate ranks
first regardless of score (errors 5 vs 3, scores 100 vs 1), and among
equal errors the higher score ranks first (errors 3, 3, scores 2 vs 9). -/
theorem match_map_pattern_rank_spec :
    (∀ (results : List MapPatternMatchResult) (topk : ℕ),
      match_map_pattern_rank results topk =
        (results.mergeSort match_rank_le).take topk ∧
      (results.mergeSort match_rank_le).Perm results ∧
      (match_map_pattern_rank results topk).Pairwise
        (fun a b => a.error < b.error ∨ (a.error = b.error ∧ b.score ≤ a.score))) ∧
    match_map_pattern_rank [⟨0, 100, 5⟩, ⟨1, 1, 3⟩] 2 = [⟨1, 1, 3⟩, ⟨0, 100, 5⟩] ∧
    match_map_pattern_rank [⟨0, 2, 3⟩, ⟨1, 9, 3⟩] 2 = [⟨1, 9, 3⟩, ⟨0, 2, 3⟩] := by
  refine ⟨?_,
    by simp [match_map_pattern_rank, List.mergeSort, List.merge, match_rank_le],
    by simp [match_map_pattern_rank, List.mergeSort, List.merge, match_rank_le]⟩
  intro results topk
  refine ⟨rfl, List.mergeSort_perm results match_rank_le, ?_⟩
  have hs := List.sorted_mergeSort
    (fun a b c => match_rank_le_trans a b c)
    match_rank_le_total results
  have hp : (match_map_pattern_rank results topk).Pairwise
      (fun a b => match_rank_le a b = true) :=
    hs.sublist ((results.mergeSort match_rank_le).take_sublist topk)
  exact hp.imp (fun h => by
    simpa [match_rank_le, decide_eq_true_eq] using h)

/-- C6: at region (0, 0, 1003, 751) with scale 1.25 the helper keeps x, y
and returns width `int(int(1003/1.25)*1.25) = 1002` and height 750, but
1002 / 1.25 = 801.6 is not an integer, contradicting the function's stated
purpose (its docstring: `w/scale, h/scale` become integers). -/
theorem process_region_to_adapt_scale_failing :
    process_region_to_adapt_scale (0, 0, 1003, 751) (5/4) = (0, 0, 1002, 750) ∧
    ¬ (∃ k : ℤ, ((1002 : ℚ) / (5/4)) = k) ∧
    (∃ k : ℤ, ((750 : ℚ) / (5/4)) = k) := by
  refine ⟨?_, ?_, ⟨600, by norm_num⟩⟩
  · simp only [process_region_to_adapt_scale]
    norm_num [pyInt]
  · rintro ⟨k, hk⟩
    have h5 : (5 : ℚ) * k = 4008 := by rw [← hk]; ring
    have hc : ((5 * k : ℤ) : ℚ) = ((4008 : ℤ) : ℚ) := by push_cast; linarith
    have h2 : (5 * k : ℤ) = 4008 := by exact_mod_cast hc
    omega

/-- C8: with target 1.0 held fixed and the orbit started at real opacity
0.0, the opacity never exceeds 1, is strictly increasing while below the
target, equals exactly 1 after 7 ticks and stays there, and one tick
snaps exactly to the target whenever the remaining gap is nonzero and at
most 0.01. -/
theorem opacity_easing_spec :
    (∀ n, opacity_orbit n ≤ 1) ∧
    (∀ n, opacity_orbit n < 1 → opacity_orbit n < opacity_orbit (n + 1)) ∧
    opacity_orbit 7 = 1 ∧
    (∀ m, 7 ≤ m → opacity_orbit m = 1) ∧
    (∀ real : ℚ, 0 < |1 - real| → |1 - real| ≤ 1/100 →
      opacity_tick 1 real = 1) := by
  refine ⟨opacity_orbit_le_one, ?_, opacity_orbit_seven, ?_, ?_⟩
  · intro n h
    exact opacity_tick_gt _ h
  · intro m hm
    obtain ⟨k, rfl⟩ : ∃ k, m = 7 + k := ⟨m - 7, by omega⟩
    induction k with
    | zero => exact opacity_orbit_seven
    | succ j ih =>
      have h7 : opacity_orbit (7 + j) = 1 := ih (by omega)
      show opacity_tick 1 (opacity_orbit (7 + j)) = 1
      rw [h7, opacity_tick_one]
  · intro real h1 h2
    simp only [opacity_tick]
    rw [if_neg (by exact not_lt.mpr h2), if_pos h1]

/-- Witness for `opacity_easing_spec`. -/
theorem opacity_easing_spec_witness :
    opacity_orbit 0 < opacity_orbit 1 :=
  opacity_easing_spec.2.1 0 (by norm_num [opacity_orbit])

/-! ## Frame lemmas for the overlay widget -/

theorem apply_opacity_visible_geometry (st : MapOverlayUIState)
    (s : MapOverlayState) :
    (apply_opacity_visible st s).geometry = s.geometry := by
  unfold apply_opacity_visible
  repeat' split
  all_goals rfl

theorem apply_flags_geometry (st : MapOverlayUIState) (s : MapOverlayState) :
    (apply_flags st s).geometry = s.geometry := by
  unfold apply_flags
  repeat' split
  all_goals rfl

theorem update_overlay_images_geometry {s t : MapOverlayState}
    (h : update_overlay_images s = .ok t) : t.geometry = s.geometry := by
  obtain ⟨g, o, v, ovi, idx, ci, cim, f1, f2, f3, f4, f5, f6⟩ := s
  rcases ovi with _ | l
  · simp only [update_overlay_images] at h
    cases Except.ok.inj h; rfl
  · rcases l with _ | ⟨a, r⟩
    · simp only [update_overlay_images] at h
      cases Except.ok.inj h; rfl
    · rcases idx with _ | i
      · simp only [update_overlay_images] at h
        exact Except.noConfusion h
      · simp only [update_overlay_images] at h
        split_ifs at h
        cases Except.ok.inj h; rfl

theorem set_overlay_images_geometry {s t : MapOverlayState}
    {imgs : Option (List ℕ)} (h : set_overlay_images s imgs = .ok t) :
    t.geometry = s.geometry :=
  update_overlay_images_geometry
    (s := { s with overlay_images := imgs, map_pattern_idx := some 0 }) h

theorem update_crystal_layout_geometry {s t : MapOverlayState}
    (h : update_crystal_layout s = .ok t) : t.geometry = s.geometry := by
  obtain ⟨g, o, v, ovi, idx, ci, cim, f1, f2, f3, f4, f5, f6⟩ := s
  rcases ci with _ | i
  · simp only [update_crystal_layout] at h
    cases Except.ok.inj h; rfl
  · simp only [update_crystal_layout] at h
    split_ifs at h
    cases Except.ok.inj h; rfl

theorem overlay_step_geometry {st : MapOverlayUIState} {s3 s4 : MapOverlayState}
    (h : (match st.overlay_images with
          | some imgs => set_overlay_images s3 (some imgs)
          | none => .ok s3) = .ok s4) : s4.geometry = s3.geometry := by
  rcases hx : st.overlay_images with _ | imgs <;> rw [hx] at h
  · cases Except.ok.inj h; rfl
  · exact set_overlay_images_geometry (s := s3) h

theorem clear_step_geometry {st : MapOverlayUIState} {s4 s5 : MapOverlayState}
    (h : (if st.clear_image then set_overlay_images s4 none else .ok s4) =
      .ok s5) : s5.geometry = s4.geometry := by
  by_cases hc : st.clear_image
  · rw [if_pos hc] at h; exact set_overlay_images_geometry (s := s4) h
  · rw [if_neg hc] at h; cases Except.ok.inj h; rfl

theorem crystal_step_geometry {st : MapOverlayUIState} {s11 t : MapOverlayState}
    (h : (match st.display_crystal_layout with
          | some b => update_crystal_layout
              { s11 with crystal_layout_idx := if b then some 0 else none }
          | none => .ok s11) = .ok t) : t.geometry = s11.geometry := by
  rcases hd : st.display_crystal_layout with _ | b <;> rw [hd] at h
  · cases Except.ok.inj h; rfl
  · exact update_crystal_layout_geometry
      (s := { s11 with crystal_layout_idx := if b then some 0 else none }) h

theorem update_ui_state_rest_geometry {st : MapOverlayUIState}
    {s t : MapOverlayState} (h : update_ui_state_rest st s = .ok t) :
    t.geometry = s.geometry := by
  simp only [update_ui_state_rest] at h
  split at h
  · exact Except.noConfusion h
  · rename_i s4 heq4
    split at h
    · exact Except.noConfusion h
    · rename_i s5 heq5
      calc t.geometry = (apply_flags st s5).geometry := crystal_step_geometry h
        _ = s5.geometry := apply_flags_geometry st s5
        _ = s4.geometry := clear_step_geometry heq5
        _ = (apply_opacity_visible st s).geometry := overlay_step_geometry heq4
        _ = s.geometry := apply_opacity_visible_geometry st s

theorem update_overlay_images_in_range {s : MapOverlayState} {l : List ℕ}
    {j : ℤ} (ho : s.overlay_images = some l) (hne : l ≠ [])
    (h0 : 0 ≤ j) (hlt : j < l.length) :
    update_overlay_images { s with map_pattern_idx := some j } =
      .ok { s with map_pattern_idx := some j } := by
  rcases l with _ | ⟨a, r⟩
  · exact absurd rfl hne
  · obtain ⟨g, o, v, ovi, idx, ci, cim, f1, f2, f3, f4, f5, f6⟩ := s
    cases ho
    simp only [update_overlay_images]
    rw [if_pos ⟨le_trans (neg_nonpos.mpr (Int.natCast_nonneg _)) h0, hlt⟩]

/-! ## Claim theorems: C9, C10 -/

/-- C9: applying a `MapOverlayUIState` patch changes the window geometry
only when `x` is present: with `x` absent the geometry survives unchanged
(even when y, w, h are present, in particular for the constructor's
`w=10, h=10, opacity=0, visible=True` patch, which also succeeds and only
sets the target opacity and visibility); with `x` present and any of y,
w, h absent the update raises; and with all four present the geometry
becomes the display-space conversion of (x, y, w, h). -/
theorem update_ui_state_geometry_spec :
    (∀ (screens : List Screen) (st : MapOverlayUIState) (s t : MapOverlayState),
      st.x = none → update_ui_state screens st s = .ok t →
      t.geometry = s.geometry) ∧
    (∀ (screens : List Screen) (st : MapOverlayUIState) (s : MapOverlayState),
      (st.x).isSome = true → (st.y = none ∨ st.w = none ∨ st.h = none) →
      update_ui_state screens st s = .error ()) ∧
    (∀ (screens : List Screen) (s : MapOverlayState),
      update_ui_state screens init_ui_patch s =
        .ok { s with target_opacity := 0, visible := true }) ∧
    (∀ (screens : List Screen) (st : MapOverlayUIState) (s t : MapOverlayState)
      (x y w h : ℤ) (r : ℤ × ℤ × ℤ × ℤ),
      st.x = some x → st.y = some y → st.w = some w → st.h = some h →
      mss_region_to_qt_region screens (x, y, w, h) = some r →
      update_ui_state screens st s = .ok t → t.geometry = r) := by
  refine ⟨?_, ?_, ?_, ?_⟩
  · intro screens st s t hx h
    simp only [update_ui_state, hx] at h
    exact update_ui_state_rest_geometry h
  · intro screens st s hx hd
    rcases hxx : st.x with _ | x
    · rw [hxx] at hx; simp at hx
    · simp only [update_ui_state, hxx]
      rcases hy : st.y with _ | y <;> rcases hw : st.w with _ | w <;>
        rcases hh : st.h with _ | h <;> simp_all
  · intro screens s
    rfl
  · intro screens st s t x y w h r hx hy hw hh hr hu
    simp only [update_ui_state, hx, hy, hw, hh, hr] at hu
    exact update_ui_state_rest_geometry hu

/-- Witness for `update_ui_state_geometry_spec`: with `x` present but `y`
absent the update fails. -/
theorem update_ui_state_geometry_spec_witness :
    update_ui_state [] { x := some 0 } empty_overlay_state = .error () :=
  update_ui_state_geometry_spec.2.1 [] { x := some 0 } empty_overlay_state
    rfl (Or.inl rfl)

/-- C10: the overlay paging state keeps `overlay_inv` (a stored list is
non-empty and the page index in range): setting a list resets the index
to 0 and normalizes `None`/empty to `None`, both paging operations
preserve the invariant and never raise under it, next-page wraps from the
last image to 0, previous-page wraps from 0 to the last image, and both
are no-ops when the widget is not visible or no images are stored. -/
theorem overlay_paging_spec :
    (∀ s, set_overlay_images s none =
      .ok { s with overlay_images := none, map_pattern_idx := some 0 }) ∧
    (∀ s, set_overlay_images s (some []) =
      .ok { s with overlay_images := none, map_pattern_idx := some 0 }) ∧
    (∀ s (img : ℕ) rest, set_overlay_images s (some (img :: rest)) =
      .ok { s with overlay_images := some (img :: rest),
                   map_pattern_idx := some 0 }) ∧
    (∀ s imgs t, set_overlay_images s imgs = .ok t → overlay_inv t) ∧
    (∀ s, overlay_inv s →
      ∃ t, next_overlay_image s = .ok t ∧ overlay_inv t) ∧
    (∀ s, overlay_inv s →
      ∃ t, last_overlay_image s = .ok t ∧ overlay_inv t) ∧
    (∀ s (l : List ℕ), s.visible = true → s.overlay_images = some l → l ≠ [] →
      s.map_pattern_idx = some ((l.length : ℤ) - 1) →
      next_overlay_image s = .ok { s with map_pattern_idx := some 0 }) ∧
    (∀ s (l : List ℕ), s.visible = true → s.overlay_images = some l → l ≠ [] →
      s.map_pattern_idx = some 0 →
      last_overlay_image s =
        .ok { s with map_pattern_idx := some ((l.length : ℤ) - 1) }) ∧
    (∀ s, s.visible = false ∨ s.overlay_images = none →
      next_overlay_image s = .ok s ∧ last_overlay_image s = .ok s) := by
  have hlen_pos : ∀ (l : List ℕ), l ≠ [] → 0 < (l.length : ℤ) := by
    intro l hne
    rcases l with _ | ⟨a, r⟩
    · exact absurd rfl hne
    · simp
  have hset_none : ∀ s : MapOverlayState, set_overlay_images s none =
      .ok { s with overlay_images := none, map_pattern_idx := some 0 } :=
    fun s => rfl
  have hset_nil : ∀ s : MapOverlayState, set_overlay_images s (some []) =
      .ok { s with overlay_images := none, map_pattern_idx := some 0 } :=
    fun s => rfl
  have hset_cons : ∀ (s : MapOverlayState) (img : ℕ) (rest : List ℕ),
      set_overlay_images s (some (img :: rest)) =
        .ok { s with overlay_images := some (img :: rest),
                     map_pattern_idx := some 0 } := by
    intro s img rest
    exact update_overlay_images_in_range
      (s := { s with overlay_images := some (img :: rest) })
      (l := img :: rest) (j := 0) rfl (by simp) le_rfl
      (hlen_pos _ (by simp))
  refine ⟨hset_none, hset_nil, hset_cons, ?_, ?_, ?_, ?_, ?_, ?_⟩
  · intro s imgs t h
    rcases imgs with _ | l
    · rw [hset_none s] at h
      cases Except.ok.inj h
      intro l hl; exact absurd hl (by simp)
    · rcases l with _ | ⟨img, rest⟩
      · rw [hset_nil s] at h
        cases Except.ok.inj h
        intro l hl; exact absurd hl (by simp)
      · rw [hset_cons s img rest] at h
        cases Except.ok.inj h
        intro l hl
        cases Option.some.inj hl
        exact ⟨by simp, 0, rfl, le_refl 0, hlen_pos _ (by simp)⟩
  · intro s hinv
    rcases hv : s.visible with _ | _
    · exact ⟨s, by simp only [next_overlay_image, hv], hinv⟩
    · rcases ho : s.overlay_images with _ | l
      · exact ⟨s, by simp only [next_overlay_image, hv, ho], hinv⟩
      · obtain ⟨hne, i, hidx, h0, hlt⟩ := hinv l ho
        obtain ⟨j, hj, hj0, hjlt⟩ :
            ∃ j : ℤ, j = (if (l.length : ℤ) ≤ i + 1 then 0 else i + 1) ∧
              0 ≤ j ∧ j < (l.length : ℤ) :=
          ⟨_, rfl, by split <;> omega, by split <;> omega⟩
        refine ⟨{ s with map_pattern_idx := some j }, ?_, ?_⟩
        · simp only [next_overlay_image, hv, ho, hidx, ← hj]
          exact update_overlay_images_in_range
            (s := { s with visible := true, overlay_images := some l })
            (l := l) rfl hne hj0 hjlt
        · intro l2 hl2
          cases Option.some.inj (ho.symm.trans hl2)
          exact ⟨hne, j, rfl, hj0, hjlt⟩
  · intro s hinv
    rcases hv : s.visible with _ | _
    · exact ⟨s, by simp only [last_overlay_image, hv], hinv⟩
    · rcases ho : s.overlay_images with _ | l
      · exact ⟨s, by simp only [last_overlay_image, hv, ho], hinv⟩
      · obtain ⟨hne, i, hidx, h0, hlt⟩ := hinv l ho
        have hlen := hlen_pos l hne
        obtain ⟨j, hj, hj0, hjlt⟩ :
            ∃ j : ℤ, j = (if i - 1 < 0 then (l.length : ℤ) - 1 else i - 1) ∧
              0 ≤ j ∧ j < (l.length : ℤ) :=
          ⟨_, rfl, by split <;> omega, by split <;> omega⟩
        refine ⟨{ s with map_pattern_idx := some j }, ?_, ?_⟩
        · simp only [last_overlay_image, hv, ho, hidx, ← hj]
          exact update_overlay_images_in_range
            (s := { s with visible := true, overlay_images := some l })
            (l := l) rfl hne hj0 hjlt
        · intro l2 hl2
          cases Option.some.inj (ho.symm.trans hl2)
          exact ⟨hne, j, rfl, hj0, hjlt⟩
  · intro s l hv ho hne hidx
    have hlen := hlen_pos l hne
    simp only [next_overlay_image, hv, ho, hidx]
    rw [if_pos (by omega)]
    exact update_overlay_images_in_range
      (s := { s with visible := true, overlay_images := some l })
      (l := l) rfl hne le_rfl hlen
  · intro s l hv ho hne hidx
    have hlen := hlen_pos l hne
    simp only [last_overlay_image, hv, ho, hidx]
    rw [if_pos (by omega)]
    exact update_overlay_images_in_range
      (s := { s with visible := true, overlay_images := some l })
      (l := l) rfl hne (by omega) (by omega)
  · intro s hd
    rcases hd with hv | ho
    · exact ⟨by simp only [next_overlay_image, hv],
             by simp only [last_overlay_image, hv]⟩
    · rcases hv : s.visible with _ | _
      · exact ⟨by simp only [next_overlay_image, hv],
               by simp only [last_overlay_image, hv]⟩
      · exact ⟨by simp only [next_overlay_image, hv, ho],
               by simp only [last_overlay_image, hv, ho]⟩

/-! ## Character, trimming and matching lemmas for the tag mapper -/

theorem ws_char_cases {c : Char} (h : isWSChar c = true) :
    c = ' ' ∨ c = '\t' ∨ c = '\n' ∨ c = '\r' ∨ c = '\x0b' ∨ c = '\x0c' := by
  simp only [isWSChar, Bool.or_eq_true, beq_iff_eq] at h
  tauto

theorem ws_lc_self {c : Char} (h : isWSChar c = true) : lcChar c = c := by
  rcases ws_char_cases h with rfl | rfl | rfl | rfl | rfl | rfl <;> decide

theorem lc_not_ws {c x : Char} (hx : lcChar c = x) (hxw : isWSChar x = false) :
    isWSChar c = false := by
  cases hw : isWSChar c
  · rfl
  · have hself : lcChar c = c := ws_lc_self hw
    have hcx : c = x := by rw [← hself, hx]
    rw [hcx] at hw
    rw [hw] at hxw
    exact Bool.noConfusion hxw

theorem isDigit_not_ws {c : Char} (h : c.isDigit = true) : isWSChar c = false := by
  cases hw : isWSChar c
  · rfl
  · rcases ws_char_cases hw with rfl | rfl | rfl | rfl | rfl | rfl <;>
      exact absurd h (by decide)

theorem toLower_of_isDigit {c : Char} (h : c.isDigit = true) : lcChar c = c := by
  simp [Char.isDigit] at h
  obtain ⟨h1, h2⟩ := h
  rw [UInt32.le_def, BitVec.le_def] at h1 h2
  unfold lcChar Char.toLower
  rw [if_neg]
  rintro ⟨h3, h4⟩
  simp [Char.toNat, UInt32.toNat] at h3 h4 h1 h2
  omega

theorem lc_ne_of_digit {d x : Char} (hd : d.isDigit = true)
    (hx : x.isDigit = false) : lcChar d ≠ x := by
  rw [toLower_of_isDigit hd]
  intro h
  rw [h] at hd
  rw [hd] at hx
  exact Bool.noConfusion hx

theorem not_digit_of_lc {c x : Char} (hx : lcChar c = x)
    (hxd : x.isDigit = false) : c.isDigit = false := by
  cases hd : c.isDigit
  · rfl
  · exact absurd hx (lc_ne_of_digit hd hxd)

theorem lc_ne_concrete {c x y : Char} (hx : lcChar c = x) (hy : lcChar y ≠ x) :
    c ≠ y := fun h => hy (h ▸ hx)

theorem matchVer_mem {l : List Char} :
    ∀ {b : Bool}, matchVer b l = true → ∀ c ∈ l, c.isDigit = true ∨ c = '.' := by
  induction l with
  | nil => intro b _ c hc; exact absurd hc (List.not_mem_nil c)
  | cons a as ih =>
    intro b h c hc
    simp only [matchVer] at h
    split_ifs at h with h1 h2
    · rcases List.mem_cons.mp hc with rfl | hc2
      · exact Or.inl h1
      · exact ih h c hc2
    · rcases List.mem_cons.mp hc with rfl | hc2
      · exact Or.inr h2.1
      · exact ih h c hc2

theorem matchVer_ne_nil {base : List Char} (h : matchVer false base = true) :
    base ≠ [] := by
  intro hn
  rw [hn] at h
  exact Bool.noConfusion h

theorem matchVer_no_dash {base : List Char} (h : matchVer false base = true) :
    base.contains '-' = false := by
  cases hc : base.contains '-'
  · rfl
  · have hm : '-' ∈ base := by
      have := List.elem_iff.mp hc
      exact this
    rcases matchVer_mem h '-' hm with hd | hd <;> exact absurd hd (by decide)

theorem dropWhile_eq_self_of_head {p : Char → Bool} {l : List Char}
    (h : ∀ c, l.head? = some c → p c = false) : l.dropWhile p = l := by
  cases l with
  | nil => rfl
  | cons a as =>
    rw [List.dropWhile_cons, h a rfl]
    simp

theorem trimChars_eq_self {l : List Char}
    (h1 : ∀ c, l.head? = some c → isWSChar c = false)
    (h2 : ∀ c, l.getLast? = some c → isWSChar c = false) : trimChars l = l := by
  have h3 : ∀ c, l.reverse.head? = some c → isWSChar c = false := by
    intro c hc
    rw [List.head?_reverse] at hc
    exact h2 c hc
  unfold trimChars
  rw [dropWhile_eq_self_of_head h1, dropWhile_eq_self_of_head h3,
    List.reverse_reverse]

theorem starts_with_app (p t : List Char) : starts_with_chars p (p ++ t) = true := by
  induction p with
  | nil => rfl
  | cons a as ih => simp [starts_with_chars, ih]

theorem getLast?_append_ne_nil {l1 l2 : List Char} (h : l2 ≠ []) :
    (l1 ++ l2).getLast? = l2.getLast? := by
  rw [List.getLast?_append]
  rcases h2 : l2.getLast? with _ | d
  · exact absurd (List.getLast?_eq_none_iff.mp h2) h
  · rfl

theorem strip_tag_eval (p : Bool) (rest : List Char) (hne : rest ≠ [])
    (hlast : ∀ c, rest.getLast? = some c → isWSChar c = false) :
    strip_tag (tagPre p ++ 'v' :: rest) = 'v' :: rest := by
  have hvne : ('v' :: rest : List Char) ≠ [] := List.cons_ne_nil _ _
  have hlast2 : ∀ c, (tagPre p ++ 'v' :: rest).getLast? = some c →
      isWSChar c = false := by
    intro c hc
    rw [getLast?_append_ne_nil hvne,
      show ('v' :: rest : List Char) = ['v'] ++ rest from rfl,
      getLast?_append_ne_nil hne] at hc
    exact hlast c hc
  have htrim : trimChars (tagPre p ++ 'v' :: rest) = tagPre p ++ 'v' :: rest := by
    refine trimChars_eq_self ?_ hlast2
    intro c hc
    cases p
    · rw [show ((tagPre false ++ 'v' :: rest).head? : Option Char) =
          some 'v' from rfl] at hc
      cases Option.some.inj hc
      decide
    · rw [show ((tagPre true ++ 'v' :: rest).head? : Option Char) =
          some 'r' from rfl] at hc
      cases Option.some.inj hc
      decide
  simp only [strip_tag]
  rw [htrim]
  cases p
  · rw [show starts_with_chars "refs/tags/".data (tagPre false ++ 'v' :: rest) =
        false from rfl]
    simp [tagPre]
  · rw [show (tagPre true ++ 'v' :: rest : List Char) =
        "refs/tags/".data ++ ('v' :: rest) from rfl,
      starts_with_app, if_pos rfl]
    exact List.drop_left' (by rfl)

example : True := trivial

theorem takeWhile_dropWhile_append {p : Char → Bool} {l1 : List Char}
    {x : Char} {l2 : List Char} (h : ∀ c ∈ l1, p c = true) (hx : p x = false) :
    (l1 ++ x :: l2).takeWhile p = l1 ∧ (l1 ++ x :: l2).dropWhile p = x :: l2 := by
  induction l1 with
  | nil =>
    refine ⟨?_, ?_⟩
    · rw [List.nil_append, List.takeWhile_cons, hx]; rfl
    · rw [List.nil_append, List.dropWhile_cons, hx]; rfl
  | cons a as ih =>
    have ha : p a = true := h a (List.mem_cons_self a as)
    have ih2 := ih (fun c hc => h c (List.mem_cons_of_mem a hc))
    refine ⟨?_, ?_⟩
    · rw [List.cons_append, List.takeWhile_cons, ha, ih2.1]; rfl
    · rw [List.cons_append, List.dropWhile_cons, ha, ih2.2]; rfl

theorem length_cond_false {rest : List Char} (hne : rest ≠ []) :
    ¬((('v' :: rest : List Char).head? ≠ some 'v') ∨
      ('v' :: rest : List Char).length < 2) := by
  refine not_or.mpr ⟨not_not_intro rfl, ?_⟩
  have := List.length_pos.mpr hne
  simp only [List.length_cons, not_lt]
  omega

theorem tag_to_pep440_release (p : Bool) (base : List Char)
    (hbase : matchVer false base = true) :
    tag_to_pep440 (tagPre p ++ 'v' :: base) = .ok (base, false) := by
  have hne := matchVer_ne_nil hbase
  have hlast : ∀ c, base.getLast? = some c → isWSChar c = false := by
    intro c hc
    rcases matchVer_mem hbase c (List.mem_of_getLast?_eq_some hc) with hd | rfl
    · exact isDigit_not_ws hd
    · decide
  simp only [tag_to_pep440]
  rw [strip_tag_eval p base hne hlast, if_neg (length_cond_false hne),
    show ('v' :: base : List Char).drop 1 = base from rfl,
    if_pos ?_, if_pos hbase]
  intro hcc
  rw [matchVer_no_dash hbase] at hcc
  exact Bool.noConfusion hcc

theorem tag_to_pep440_dash (p : Bool) (base sfx : List Char)
    (hbase : matchVer false base = true)
    (hsne : sfx ≠ [])
    (hslast : ∀ c, sfx.getLast? = some c → isWSChar c = false) :
    tag_to_pep440 (tagPre p ++ 'v' :: (base ++ '-' :: sfx)) =
      (match suffix_label_num sfx with
       | none => .error "Unsupported pre-release tag suffix".data
       | some (lab, num) =>
         if lab = "alpha".data ∨ lab = "a".data then
           .ok (base ++ "a".data ++ num, true)
         else if lab = "beta".data ∨ lab = "b".data then
           .ok (base ++ "b".data ++ num, true)
         else if lab = "rc".data then
           .ok (base ++ "rc".data ++ num, true)
         else if lab = "pre".data ∨ lab = "preview".data then
           .ok (base ++ "rc".data ++ num, true)
         else if lab = "dev".data then
           .ok (base ++ ".dev".data ++ num, true)
         else if lab = "post".data then
           .ok (base ++ ".post".data ++ num, true)
         else .error "Unhandled label".data) := by
  have hrest_ne : (base ++ '-' :: sfx : List Char) ≠ [] := by simp
  have hrlast : ∀ c, (base ++ '-' :: sfx).getLast? = some c →
      isWSChar c = false := by
    intro c hc
    rw [getLast?_append_ne_nil (List.cons_ne_nil _ _),
      show ('-' :: sfx : List Char) = ['-'] ++ sfx from rfl,
      getLast?_append_ne_nil hsne] at hc
    exact hslast c hc
  have hbase_chars : ∀ c ∈ base, (fun c => decide (c ≠ '-')) c = true := by
    intro c hc
    rcases matchVer_mem hbase c hc with hd | rfl
    · simp only [decide_eq_true_eq]
      intro h
      rw [h] at hd
      exact absurd hd (by decide)
    · decide
  obtain ⟨htw, hdw⟩ := takeWhile_dropWhile_append hbase_chars
    (show (fun c => decide (c ≠ '-')) '-' = false by decide)
  have hcontains : (base ++ '-' :: sfx).contains '-' = true :=
    List.elem_eq_true_of_mem
      (List.mem_append_right _ (List.mem_cons_self _ _))
  simp only [tag_to_pep440]
  rw [strip_tag_eval p _ hrest_ne hrlast, if_neg (length_cond_false hrest_ne),
    show ('v' :: (base ++ '-' :: sfx) : List Char).drop 1 = base ++ '-' :: sfx
      from rfl,
    if_neg (not_not_intro hcontains), htw, hdw,
    show ('-' :: sfx : List Char).tail = sfx from rfl,
    if_neg (not_not_intro hbase)]

theorem label_num_match_eq (lab s : List Char) :
    label_num_match lab s =
      if (s.map lcChar).take lab.length = lab then
        (match s.drop lab.length with
         | '.' :: r => if r ≠ [] ∧ r.all Char.isDigit then some (lab, r) else none
         | r => if r ≠ [] ∧ r.all Char.isDigit then some (lab, r) else none)
      else none := by
  unfold label_num_match
  rw [List.map_take]

theorem label_num_miss {lab s : List Char}
    (h : (s.map lcChar).take lab.length ≠ lab) :
    label_num_match lab s = none := by
  rw [label_num_match_eq, if_neg h]

theorem list_ne_pos1 {a b : Char} {l m : List Char} (h : a ≠ b) :
    (a :: l : List Char) ≠ b :: m := by
  intro heq
  exact h (List.cons.inj heq).1

theorem list_ne_pos2 {a b c d : Char} {l m : List Char} (h : b ≠ d) :
    (a :: b :: l : List Char) ≠ c :: d :: m := by
  intro heq
  exact h ((List.cons.inj (List.cons.inj heq).2).1)

theorem map_lc_eval {labc sep num : List Char} {L : List Char}
    (hlab : labc.map lcChar = L)
    (hsep : sep = [] ∨ sep = ['.'])
    (hdig : num.all Char.isDigit = true) :
    (labc ++ (sep ++ num)).map lcChar = L ++ (sep ++ num) := by
  rw [List.map_append, hlab, List.map_append]
  have h1 : sep.map lcChar = sep := by
    rcases hsep with rfl | rfl
    · rfl
    · decide
  have h2 : num.map lcChar = num := by
    have h3 : ∀ d ∈ num, lcChar d = id d :=
      fun d hd => toLower_of_isDigit (List.all_eq_true.mp hdig d hd)
    rw [List.map_congr_left h3, List.map_id]
  rw [h1, h2]

theorem take2_sep_num_ne {a : Char} {sep num : List Char} {x : Char}
    {ts : List Char} {n : ℕ} {b : Char}
    (hsep : sep = [] ∨ sep = ['.']) (hnum : num ≠ [])
    (hdig : num.all Char.isDigit = true)
    (hxd : x.isDigit = false) (hxdot : x ≠ '.') :
    ((a :: (sep ++ num)).take (n + 2)) ≠ b :: x :: ts := by
  rcases hsep with rfl | rfl
  · rcases num with _ | ⟨d, nr⟩
    · exact absurd rfl hnum
    · have hd : d.isDigit = true := by
        have h2 := hdig
        rw [List.all_cons, Bool.and_eq_true] at h2
        exact h2.1
      refine list_ne_pos2 (fun h => ?_)
      rw [h] at hd
      rw [hd] at hxd
      exact Bool.noConfusion hxd
  · exact list_ne_pos2 (fun h => hxdot h.symm)

theorem label_num_hit {labc sep num : List Char} {L : List Char}
    (hlab : labc.map lcChar = L)
    (hsep : sep = [] ∨ sep = ['.'])
    (hnum : num ≠ []) (hdig : num.all Char.isDigit = true) :
    label_num_match L (labc ++ (sep ++ num)) = some (L, num) := by
  have hlen : L.length = labc.length := by rw [← hlab, List.length_map]
  unfold label_num_match
  rw [hlen, List.take_left, List.drop_left, hlab, if_pos rfl]
  rcases hsep with rfl | rfl
  · rw [List.nil_append]
    rcases num with _ | ⟨d, nr⟩
    · exact absurd rfl hnum
    · have hd : d.isDigit = true := by
        have h2 := hdig
        rw [List.all_cons, Bool.and_eq_true] at h2
        exact h2.1
      have hdne : d ≠ '.' := by
        intro h
        rw [h] at hd
        exact absurd hd (by decide)
      split
      · rename_i r heq
        exact absurd (List.cons.inj heq).1 hdne
      · rw [if_pos ⟨List.cons_ne_nil _ _, hdig⟩]
  · split
    · rename_i r heq
      cases (List.cons.inj heq).2
      rw [if_pos ⟨hnum, hdig⟩]
      rfl
    · rename_i hne2
      exact absurd rfl (hne2 num)

theorem suffix_label_alpha {labc sep num : List Char}
    (hlab : labc.map lcChar = "alpha".data)
    (hsep : sep = [] ∨ sep = ['.'])
    (hnum : num ≠ []) (hdig : num.all Char.isDigit = true) :
    suffix_label_num (labc ++ (sep ++ num)) = some ("alpha".data, num) := by
  have hhit := label_num_hit hlab hsep hnum hdig
  unfold suffix_label_num tag_labels
  simp only [List.findSome?_cons, hhit]

theorem suffix_label_a {labc sep num : List Char}
    (hlab : labc.map lcChar = "a".data)
    (hsep : sep = [] ∨ sep = ['.'])
    (hnum : num ≠ []) (hdig : num.all Char.isDigit = true) :
    suffix_label_num (labc ++ (sep ++ num)) = some ("a".data, num) := by
  have hhit := label_num_hit hlab hsep hnum hdig
  have m1 : label_num_match "alpha".data (labc ++ (sep ++ num)) = none := by
    refine label_num_miss ?_
    rw [map_lc_eval hlab hsep hdig]
    exact @take2_sep_num_ne 'a' sep num 'l' "pha".data 3 'a' hsep hnum hdig
      (by decide) (by decide)
  unfold suffix_label_num tag_labels
  simp only [List.findSome?_cons, m1, hhit]

theorem suffix_label_beta {labc sep num : List Char}
    (hlab : labc.map lcChar = "beta".data)
    (hsep : sep = [] ∨ sep = ['.'])
    (hnum : num ≠ []) (hdig : num.all Char.isDigit = true) :
    suffix_label_num (labc ++ (sep ++ num)) = some ("beta".data, num) := by
  have hhit := label_num_hit hlab hsep hnum hdig
  have m1 : label_num_match "alpha".data (labc ++ (sep ++ num)) = none :=
    label_num_miss (by rw [map_lc_eval hlab hsep hdig]; exact list_ne_pos1 (by decide))
  have m2 : label_num_match "a".data (labc ++ (sep ++ num)) = none :=
    label_num_miss (by rw [map_lc_eval hlab hsep hdig]; exact list_ne_pos1 (by decide))
  unfold suffix_label_num tag_labels
  simp only [List.findSome?_cons, m1, m2, hhit]

theorem suffix_label_b {labc sep num : List Char}
    (hlab : labc.map lcChar = "b".data)
    (hsep : sep = [] ∨ sep = ['.'])
    (hnum : num ≠ []) (hdig : num.all Char.isDigit = true) :
    suffix_label_num (labc ++ (sep ++ num)) = some ("b".data, num) := by
  have hhit := label_num_hit hlab hsep hnum hdig
  have m1 : label_num_match "alpha".data (labc ++ (sep ++ num)) = none :=
    label_num_miss (by rw [map_lc_eval hlab hsep hdig]; exact list_ne_pos1 (by decide))
  have m2 : label_num_match "a".data (labc ++ (sep ++ num)) = none :=
    label_num_miss (by rw [map_lc_eval hlab hsep hdig]; exact list_ne_pos1 (by decide))
  have m3 : label_num_match "beta".data (labc ++ (sep ++ num)) = none := by
    refine label_num_miss ?_
    rw [map_lc_eval hlab hsep hdig]
    exact @take2_sep_num_ne 'b' sep num 'e' "ta".data 2 'b' hsep hnum hdig
      (by decide) (by decide)
  unfold suffix_label_num tag_labels
  simp only [List.findSome?_cons, m1, m2, m3, hhit]

theorem suffix_label_rc {labc sep num : List Char}
    (hlab : labc.map lcChar = "rc".data)
    (hsep : sep = [] ∨ sep = ['.'])
    (hnum : num ≠ []) (hdig : num.all Char.isDigit = true) :
    suffix_label_num (labc ++ (sep ++ num)) = some ("rc".data, num) := by
  have hhit := label_num_hit hlab hsep hnum hdig
  have m1 : label_num_match "alpha".data (labc ++ (sep ++ num)) = none :=
    label_num_miss (by rw [map_lc_eval hlab hsep hdig]; exact list_ne_pos1 (by decide))
  have m2 : label_num_match "a".data (labc ++ (sep ++ num)) = none :=
    label_num_miss (by rw [map_lc_eval hlab hsep hdig]; exact list_ne_pos1 (by decide))
  have m3 : label_num_match "beta".data (labc ++ (sep ++ num)) = none :=
    label_num_miss (by rw [map_lc_eval hlab hsep hdig]; exact list_ne_pos1 (by decide))
  have m4 : label_num_match "b".data (labc ++ (sep ++ num)) = none :=
    label_num_miss (by rw [map_lc_eval hlab hsep hdig]; exact list_ne_pos1 (by decide))
  unfold suffix_label_num tag_labels
  simp only [List.findSome?_cons, m1, m2, m3, m4, hhit]

theorem suffix_label_pre {labc sep num : List Char}
    (hlab : labc.map lcChar = "pre".data)
    (hsep : sep = [] ∨ sep = ['.'])
    (hnum : num ≠ []) (hdig : num.all Char.isDigit = true) :
    suffix_label_num (labc ++ (sep ++ num)) = some ("pre".data, num) := by
  have hhit := label_num_hit hlab hsep hnum hdig
  have m1 : label_num_match "alpha".data (labc ++ (sep ++ num)) = none :=
    label_num_miss (by rw [map_lc_eval hlab hsep hdig]; exact list_ne_pos1 (by decide))
  have m2 : label_num_match "a".data (labc ++ (sep ++ num)) = none :=
    label_num_miss (by rw [map_lc_eval hlab hsep hdig]; exact list_ne_pos1 (by decide))
  have m3 : label_num_match "beta".data (labc ++ (sep ++ num)) = none :=
    label_num_miss (by rw [map_lc_eval hlab hsep hdig]; exact list_ne_pos1 (by decide))
  have m4 : label_num_match "b".data (labc ++ (sep ++ num)) = none :=
    label_num_miss (by rw [map_lc_eval hlab hsep hdig]; exact list_ne_pos1 (by decide))
  have m5 : label_num_match "rc".data (labc ++ (sep ++ num)) = none :=
    label_num_miss (by rw [map_lc_eval hlab hsep hdig]; exact list_ne_pos1 (by decide))
  unfold suffix_label_num tag_labels
  simp only [List.findSome?_cons, m1, m2, m3, m4, m5, hhit]

theorem suffix_label_preview {labc sep num : List Char}
    (hlab : labc.map lcChar = "preview".data)
    (hsep : sep = [] ∨ sep = ['.'])
    (hnum : num ≠ []) (hdig : num.all Char.isDigit = true) :
    suffix_label_num (labc ++ (sep ++ num)) = some ("preview".data, num) := by
  have hhit := label_num_hit hlab hsep hnum hdig
  have m1 : label_num_match "alpha".data (labc ++ (sep ++ num)) = none :=
    label_num_miss (by rw [map_lc_eval hlab hsep hdig]; exact list_ne_pos1 (by decide))
  have m2 : label_num_match "a".data (labc ++ (sep ++ num)) = none :=
    label_num_miss (by rw [map_lc_eval hlab hsep hdig]; exact list_ne_pos1 (by decide))
  have m3 : label_num_match "beta".data (labc ++ (sep ++ num)) = none :=
    label_num_miss (by rw [map_lc_eval hlab hsep hdig]; exact list_ne_pos1 (by decide))
  have m4 : label_num_match "b".data (labc ++ (sep ++ num)) = none :=
    label_num_miss (by rw [map_lc_eval hlab hsep hdig]; exact list_ne_pos1 (by decide))
  have m5 : label_num_match "rc".data (labc ++ (sep ++ num)) = none :=
    label_num_miss (by rw [map_lc_eval hlab hsep hdig]; exact list_ne_pos1 (by decide))
  have m6 : label_num_match "pre".data (labc ++ (sep ++ num)) = none := by
    rw [label_num_match_eq, map_lc_eval hlab hsep hdig, if_pos (by rfl)]
    have hlen7 : labc.length = 7 := by
      have hh := congrArg List.length hlab
      rw [List.length_map] at hh
      exact hh
    rw [List.drop_append_of_le_length (by rw [hlen7]; decide)]
    have hd3 : "pre".data.length = 3 := rfl
    rw [hd3]
    have hv : (labc.drop 3).map lcChar = "view".data := by
      rw [List.map_drop, hlab]
      rfl
    rcases h4 : labc.drop 3 with _ | ⟨c4, r4⟩
    · rw [h4] at hv
      exact absurd hv (by decide)
    · rw [h4] at hv
      have hc4 : lcChar c4 = 'v' := (List.cons.inj hv).1
      have hc4dot : c4 ≠ '.' := lc_ne_concrete hc4 (by decide)
      have hc4dig : c4.isDigit = false := not_digit_of_lc hc4 (by decide)
      split
      · rename_i r heq
        exact absurd (List.cons.inj heq).1 hc4dot
      · rw [if_neg]
        rintro ⟨h1, h2⟩
        rw [List.cons_append, List.all_cons, Bool.and_eq_true] at h2
        rw [hc4dig] at h2
        exact Bool.noConfusion h2.1
  unfold suffix_label_num tag_labels
  simp only [List.findSome?_cons, m1, m2, m3, m4, m5, m6, hhit]

theorem suffix_label_dev {labc sep num : List Char}
    (hlab : labc.map lcChar = "dev".data)
    (hsep : sep = [] ∨ sep = ['.'])
    (hnum : num ≠ []) (hdig : num.all Char.isDigit = true) :
    suffix_label_num (labc ++ (sep ++ num)) = some ("dev".data, num) := by
  have hhit := label_num_hit hlab hsep hnum hdig
  have m1 : label_num_match "alpha".data (labc ++ (sep ++ num)) = none :=
    label_num_miss (by rw [map_lc_eval hlab hsep hdig]; exact list_ne_pos1 (by decide))
  have m2 : label_num_match "a".data (labc ++ (sep ++ num)) = none :=
    label_num_miss (by rw [map_lc_eval hlab hsep hdig]; exact list_ne_pos1 (by decide))
  have m3 : label_num_match "beta".data (labc ++ (sep ++ num)) = none :=
    label_num_miss (by rw [map_lc_eval hlab hsep hdig]; exact list_ne_pos1 (by decide))
  have m4 : label_num_match "b".data (labc ++ (sep ++ num)) = none :=
    label_num_miss (by rw [map_lc_eval hlab hsep hdig]; exact list_ne_pos1 (by decide))
  have m5 : label_num_match "rc".data (labc ++ (sep ++ num)) = none :=
    label_num_miss (by rw [map_lc_eval hlab hsep hdig]; exact list_ne_pos1 (by decide))
  have m6 : label_num_match "pre".data (labc ++ (sep ++ num)) = none :=
    label_num_miss (by rw [map_lc_eval hlab hsep hdig]; exact list_ne_pos1 (by decide))
  have m7 : label_num_match "preview".data (labc ++ (sep ++ num)) = none :=
    label_num_miss (by rw [map_lc_eval hlab hsep hdig]; exact list_ne_pos1 (by decide))
  unfold suffix_label_num tag_labels
  simp only [List.findSome?_cons, m1, m2, m3, m4, m5, m6, m7, hhit]

theorem suffix_label_post {labc sep num : List Char}
    (hlab : labc.map lcChar = "post".data)
    (hsep : sep = [] ∨ sep = ['.'])
    (hnum : num ≠ []) (hdig : num.all Char.isDigit = true) :
    suffix_label_num (labc ++ (sep ++ num)) = some ("post".data, num) := by
  have hhit := label_num_hit hlab hsep hnum hdig
  have m1 : label_num_match "alpha".data (labc ++ (sep ++ num)) = none :=
    label_num_miss (by rw [map_lc_eval hlab hsep hdig]; exact list_ne_pos1 (by decide))
  have m2 : label_num_match "a".data (labc ++ (sep ++ num)) = none :=
    label_num_miss (by rw [map_lc_eval hlab hsep hdig]; exact list_ne_pos1 (by decide))
  have m3 : label_num_match "beta".data (labc ++ (sep ++ num)) = none :=
    label_num_miss (by rw [map_lc_eval hlab hsep hdig]; exact list_ne_pos1 (by decide))
  have m4 : label_num_match "b".data (labc ++ (sep ++ num)) = none :=
    label_num_miss (by rw [map_lc_eval hlab hsep hdig]; exact list_ne_pos1 (by decide))
  have m5 : label_num_match "rc".data (labc ++ (sep ++ num)) = none :=
    label_num_miss (by rw [map_lc_eval hlab hsep hdig]; exact list_ne_pos1 (by decide))
  have m6 : label_num_match "pre".data (labc ++ (sep ++ num)) = none :=
    label_num_miss (by rw [map_lc_eval hlab hsep hdig]; exact list_ne_pos2 (by decide))
  have m7 : label_num_match "preview".data (labc ++ (sep ++ num)) = none :=
    label_num_miss (by rw [map_lc_eval hlab hsep hdig]; exact list_ne_pos2 (by decide))
  have m8 : label_num_match "dev".data (labc ++ (sep ++ num)) = none :=
    label_num_miss (by rw [map_lc_eval hlab hsep hdig]; exact list_ne_pos1 (by decide))
  unfold suffix_label_num tag_labels
  simp only [List.findSome?_cons, m1, m2, m3, m4, m5, m6, m7, m8, hhit]

/-- C1: for every accepted tag, with or without the `refs/tags/` prefix:
a pure release tag `v<digits[.digits...]>` maps to the digit string
unchanged with is-prerelease false, and a suffixed tag
`v<base>-<label><optional dot><digits N>` with the label matched
case-insensitively maps alpha/a to `<base>aN`, beta/b to `<base>bN`,
rc, pre and preview to `<base>rcN`, dev to `<base>.devN` and post to
`<base>.postN`, with is-prerelease true in every suffixed case,
including post. -/
theorem tag_to_pep440_mapping (p : Bool) (base sep num : List Char)
    (hbase : matchVer false base = true)
    (hsep : sep = [] ∨ sep = ['.'])
    (hnum : num ≠ []) (hdig : num.all Char.isDigit = true) :
    tag_to_pep440 (tagPre p ++ 'v' :: base) = .ok (base, false) ∧
    (∀ labc, labc.map lcChar = "alpha".data →
      tag_to_pep440 (tagPre p ++ 'v' :: (base ++ '-' :: (labc ++ (sep ++ num)))) =
        .ok (base ++ "a".data ++ num, true)) ∧
    (∀ labc, labc.map lcChar = "a".data →
      tag_to_pep440 (tagPre p ++ 'v' :: (base ++ '-' :: (labc ++ (sep ++ num)))) =
        .ok (base ++ "a".data ++ num, true)) ∧
    (∀ labc, labc.map lcChar = "beta".data →
      tag_to_pep440 (tagPre p ++ 'v' :: (base ++ '-' :: (labc ++ (sep ++ num)))) =
        .ok (base ++ "b".data ++ num, true)) ∧
    (∀ labc, labc.map lcChar = "b".data →
      tag_to_pep440 (tagPre p ++ 'v' :: (base ++ '-' :: (labc ++ (sep ++ num)))) =
        .ok (base ++ "b".data ++ num, true)) ∧
    (∀ labc, labc.map lcChar = "rc".data →
      tag_to_pep440 (tagPre p ++ 'v' :: (base ++ '-' :: (labc ++ (sep ++ num)))) =
        .ok (base ++ "rc".data ++ num, true)) ∧
    (∀ labc, labc.map lcChar = "pre".data →
      tag_to_pep440 (tagPre p ++ 'v' :: (base ++ '-' :: (labc ++ (sep ++ num)))) =
        .ok (base ++ "rc".data ++ num, true)) ∧
    (∀ labc, labc.map lcChar = "preview".data →
      tag_to_pep440 (tagPre p ++ 'v' :: (base ++ '-' :: (labc ++ (sep ++ num)))) =
        .ok (base ++ "rc".data ++ num, true)) ∧
    (∀ labc, labc.map lcChar = "dev".data →
      tag_to_pep440 (tagPre p ++ 'v' :: (base ++ '-' :: (labc ++ (sep ++ num)))) =
        .ok (base ++ ".dev".data ++ num, true)) ∧
    (∀ labc, labc.map lcChar = "post".data →
      tag_to_pep440 (tagPre p ++ 'v' :: (base ++ '-' :: (labc ++ (sep ++ num)))) =
        .ok (base ++ ".post".data ++ num, true)) := by
  have hsfx : ∀ labc : List Char, (labc ++ (sep ++ num)) ≠ [] ∧
      (∀ c, (labc ++ (sep ++ num)).getLast? = some c → isWSChar c = false) := by
    intro labc
    constructor
    · intro h
      rcases List.append_eq_nil.mp h with ⟨h1, h2⟩
      rcases List.append_eq_nil.mp h2 with ⟨h3, h4⟩
      exact hnum h4
    · intro c hc
      rw [getLast?_append_ne_nil (fun h => hnum (List.append_eq_nil.mp h).2),
        getLast?_append_ne_nil hnum] at hc
      exact isDigit_not_ws (List.all_eq_true.mp hdig c (List.mem_of_getLast?_eq_some hc))
  refine ⟨tag_to_pep440_release p base hbase, ?_, ?_, ?_, ?_, ?_, ?_, ?_, ?_, ?_⟩
  · intro labc hlab
    rw [tag_to_pep440_dash p base _ hbase (hsfx labc).1 (hsfx labc).2]
    simp only [suffix_label_alpha hlab hsep hnum hdig]
    simp
  · intro labc hlab
    rw [tag_to_pep440_dash p base _ hbase (hsfx labc).1 (hsfx labc).2]
    simp only [suffix_label_a hlab hsep hnum hdig]
    simp
  · intro labc hlab
    rw [tag_to_pep440_dash p base _ hbase (hsfx labc).1 (hsfx labc).2]
    simp only [suffix_label_beta hlab hsep hnum hdig]
    simp
  · intro labc hlab
    rw [tag_to_pep440_dash p base _ hbase (hsfx labc).1 (hsfx labc).2]
    simp only [suffix_label_b hlab hsep hnum hdig]
    simp
  · intro labc hlab
    rw [tag_to_pep440_dash p base _ hbase (hsfx labc).1 (hsfx labc).2]
    simp only [suffix_label_rc hlab hsep hnum hdig]
    simp
  · intro labc hlab
    rw [tag_to_pep440_dash p base _ hbase (hsfx labc).1 (hsfx labc).2]
    simp only [suffix_label_pre hlab hsep hnum hdig]
    simp
  · intro labc hlab
    rw [tag_to_pep440_dash p base _ hbase (hsfx labc).1 (hsfx labc).2]
    simp only [suffix_label_preview hlab hsep hnum hdig]
    simp
  · intro labc hlab
    rw [tag_to_pep440_dash p base _ hbase (hsfx labc).1 (hsfx labc).2]
    simp only [suffix_label_dev hlab hsep hnum hdig]
    simp
  · intro labc hlab
    rw [tag_to_pep440_dash p base _ hbase (hsfx labc).1 (hsfx labc).2]
    simp only [suffix_label_post hlab hsep hnum hdig]
    simp

/-- Witness for `tag_to_pep440_mapping`: the tag `v1.2.3-rc.1` maps to
`1.2.3rc1` with is-prerelease true. -/
theorem tag_to_pep440_mapping_witness :
    tag_to_pep440 "v1.2.3-rc.1".data = .ok ("1.2.3rc1".data, true) := by
  have h := (tag_to_pep440_mapping false "1.2.3".data ['.'] ['1']
    (by decide) (Or.inr rfl) (by decide) (by decide)).2.2.2.2.2.1
  exact h "rc".data (by decide)

/-! ## Tag acceptance lemmas -/

theorem accepted_of_ok {tag : List Char} {p : List Char × Bool}
    (ht : tag_to_pep440 tag = .ok p) : accepted_tag tag = true := by
  simp only [tag_to_pep440] at ht
  simp only [accepted_tag]
  split_ifs at ht with h1 h2 h3 h3
  all_goals try (rw [if_neg h1, if_pos h2]; exact h3)
  all_goals rw [if_neg h1, if_neg (not_not_intro h2)]
  all_goals split at ht
  all_goals try exact Except.noConfusion ht
  all_goals rename_i pr hS
  all_goals rw [hS]
  all_goals simp only [Option.isSome_some, Bool.and_true]
  all_goals exact h3

/-- C7: every tag whose preprocessed form does not start with `v`
followed by a character, or whose base is not digits separated by dots,
or whose suffix is unsupported (that is, every tag outside
`accepted_tag`) makes `tag_to_pep440` raise, and since `main` maps the
tag before touching the file, the file content is left untouched; in
particular `1.2.3`, `v`, `v1.2.3-xyz.1` and `va.b.c` are all rejected
this way. -/
theorem tag_to_pep440_rejects :
    (∀ tag, accepted_tag tag = false → ∃ e, tag_to_pep440 tag = .error e) ∧
    (∀ tag content, accepted_tag tag = false →
      (main_run tag content).2 = content ∧
      ∃ e, (main_run tag content).1 = .error e) ∧
    accepted_tag "1.2.3".data = false ∧
    accepted_tag "v".data = false ∧
    accepted_tag "v1.2.3-xyz.1".data = false ∧
    accepted_tag "va.b.c".data = false := by
  have key : ∀ tag, accepted_tag tag = false →
      ∃ e, tag_to_pep440 tag = .error e := by
    intro tag h
    rcases ht : tag_to_pep440 tag with e | p
    · exact ⟨e, rfl⟩
    · rw [accepted_of_ok ht] at h
      exact Bool.noConfusion h
  refine ⟨key, ?_, by decide, by decide, by decide, by decide⟩
  intro tag content h
  obtain ⟨e, he⟩ := key tag h
  simp only [main_run, he]
  exact ⟨trivial, e, rfl⟩

/-- Witness for `tag_to_pep440_rejects`: the tag `1.2.3` (no leading
`v`) is rejected. -/
theorem tag_to_pep440_rejects_witness :
    ∃ e, tag_to_pep440 "1.2.3".data = .error e :=
  tag_to_pep440_rejects.1 "1.2.3".data (by decide)

/-- Witness for `overlay_paging_spec`: paging forward from page 1 of two
stored images succeeds and keeps the invariant. -/
theorem overlay_paging_spec_witness :
    ∃ t, next_overlay_image paged_overlay_state = .ok t ∧ overlay_inv t :=
  overlay_paging_spec.2.2.2.2.1 paged_overlay_state
    (by
      intro l hl
      cases Option.some.inj hl
      exact ⟨by simp, 1, rfl, by norm_num, by norm_num⟩)

theorem split_keepends_aux_flatten (acc l : List Char) :
    (split_keepends_aux acc l).flatten = acc.reverse ++ l := by
  induction acc, l using split_keepends_aux.induct <;>
    simp_all [split_keepends_aux]

theorem split_keepends_flatten (content : List Char) :
    (split_keepends content).flatten = content := by
  unfold split_keepends
  rw [split_keepends_aux_flatten]
  rfl

theorem rstrip_rn_decomp (l : List Char) :
    l = rstrip_rn l ++ l.drop (rstrip_rn l).length ∧
    ∀ c ∈ l.drop (rstrip_rn l).length, rn_char c = true := by
  have key : rstrip_rn l ++ (l.reverse.takeWhile rn_char).reverse = l := by
    unfold rstrip_rn
    rw [← List.reverse_append, List.takeWhile_append_dropWhile,
      List.reverse_reverse]
  have hdrop : l.drop (rstrip_rn l).length =
      (l.reverse.takeWhile rn_char).reverse := by
    set r := rstrip_rn l with hr
    set e := (l.reverse.takeWhile rn_char).reverse with he
    rw [← key, List.drop_left]
  constructor
  · rw [hdrop]
    exact key.symm
  · intro c hc
    rw [hdrop, List.mem_reverse] at hc
    exact List.mem_takeWhile_imp hc

theorem starts_with_decomp {p s : List Char}
    (h : starts_with_chars p s = true) : s = p ++ s.drop p.length := by
  induction p generalizing s with
  | nil => simp
  | cons a ps ih =>
    cases s with
    | nil => exact absurd h (by simp [starts_with_chars])
    | cons c cs =>
      simp only [starts_with_chars, Bool.and_eq_true, beq_iff_eq] at h
      obtain ⟨rfl, h2⟩ := h
      simp only [List.cons_append, List.length_cons, List.drop_succ_cons]
      exact congrArg (List.cons a) (ih h2)

theorem version_line_props {l pre v suf : List Char}
    (h : version_line_parts l = some (pre, v, suf)) :
    l = pre ++ '\"' :: v ++ '\"' :: suf ∧ suf.all isWSChar = true := by
  simp only [version_line_parts] at h
  split_ifs at h with hsw
  split at h
  · rename_i r4 heq1
    split at h
    · rename_i r6 heq2
      split at h
      · rename_i tl heq3
        split_ifs at h with hall
        have h2 := Option.some.inj h
        rw [Prod.mk.injEq, Prod.mk.injEq] at h2
        obtain ⟨hpre, hv, hsuf⟩ := h2
        subst hpre
        subst hv
        subst hsuf
        refine ⟨?_, hall⟩
        have hsd : List.dropWhile isWSChar l =
            "version".data ++ (List.dropWhile isWSChar l).drop 7 :=
          starts_with_decomp hsw
        calc l = List.takeWhile isWSChar l ++ List.dropWhile isWSChar l :=
              (List.takeWhile_append_dropWhile isWSChar l).symm
          _ = List.takeWhile isWSChar l ++ ("version".data ++
                (List.dropWhile isWSChar l).drop 7) := by
              rw [← hsd]
          _ = List.takeWhile isWSChar l ++ ("version".data ++
                (List.takeWhile isWSChar ((List.dropWhile isWSChar l).drop 7) ++
                 List.dropWhile isWSChar ((List.dropWhile isWSChar l).drop 7))) := by
              rw [List.takeWhile_append_dropWhile]
          _ = List.takeWhile isWSChar l ++ ("version".data ++
                (List.takeWhile isWSChar ((List.dropWhile isWSChar l).drop 7) ++
                 ('=' :: r4))) := by rw [heq1]
          _ = List.takeWhile isWSChar l ++ ("version".data ++
                (List.takeWhile isWSChar ((List.dropWhile isWSChar l).drop 7) ++
                 ('=' :: (List.takeWhile isWSChar r4 ++
                          List.dropWhile isWSChar r4)))) := by
              rw [List.takeWhile_append_dropWhile]
          _ = List.takeWhile isWSChar l ++ ("version".data ++
                (List.takeWhile isWSChar ((List.dropWhile isWSChar l).drop 7) ++
                 ('=' :: (List.takeWhile isWSChar r4 ++ ('\"' :: r6))))) := by
              rw [heq2]
          _ = List.takeWhile isWSChar l ++ ("version".data ++
                (List.takeWhile isWSChar ((List.dropWhile isWSChar l).drop 7) ++
                 ('=' :: (List.takeWhile isWSChar r4 ++
                   ('\"' :: (List.takeWhile (fun c => c ≠ '\"') r6 ++
                              List.dropWhile (fun c => c ≠ '\"') r6)))))) := by
              rw [List.takeWhile_append_dropWhile]
          _ = List.takeWhile isWSChar l ++ ("version".data ++
                (List.takeWhile isWSChar ((List.dropWhile isWSChar l).drop 7) ++
                 ('=' :: (List.takeWhile isWSChar r4 ++
                   ('\"' :: (List.takeWhile (fun c => c ≠ '\"') r6 ++
                              ('\"' :: tl))))))) := by rw [heq3]
          _ = (List.takeWhile isWSChar l ++ "version".data ++
                List.takeWhile isWSChar ((List.dropWhile isWSChar l).drop 7) ++
                '=' :: List.takeWhile isWSChar r4) ++
              '\"' :: List.takeWhile (fun c => c ≠ '\"') r6 ++ '\"' :: tl := by
              simp [List.append_assoc]
      · exact Option.noConfusion h
    · exact Option.noConfusion h
  · exact Option.noConfusion h

theorem upd_lines_skip {newV l : List Char} {ls : List (List Char)}
    {b bN : Bool}
    (hfind : find_version_line b (l :: ls) =
      (match find_version_line bN ls with
       | some (i, r) => some (i + 1, r)
       | none => none))
    (hupd : upd_lines newV b (l :: ls) =
      (match upd_lines newV bN ls with
       | .error e => .error e
       | .ok (bb, ls2) => .ok (bb, l :: ls2)))
    (ih : (find_version_line bN ls = none → upd_lines newV bN ls = .error ()) ∧
      (∀ i pre val suf, find_version_line bN ls = some (i, pre, val, suf) →
        ∃ ending, ls[i]? = some (pre ++ '\"' :: val ++ '\"' :: (suf ++ ending)) ∧
          (∀ c ∈ ending, rn_char c = true) ∧
          suf.all isWSChar = true ∧
          (val = newV → upd_lines newV bN ls = .ok (false, ls)) ∧
          (val ≠ newV → upd_lines newV bN ls =
            .ok (true, ls.set i (pre ++ '\"' :: newV ++ '\"' :: (suf ++ ending)))))) :
    (find_version_line b (l :: ls) = none →
      upd_lines newV b (l :: ls) = .error ()) ∧
    (∀ i pre val suf, find_version_line b (l :: ls) = some (i, pre, val, suf) →
      ∃ ending,
        (l :: ls)[i]? = some (pre ++ '\"' :: val ++ '\"' :: (suf ++ ending)) ∧
        (∀ c ∈ ending, rn_char c = true) ∧
        suf.all isWSChar = true ∧
        (val = newV → upd_lines newV b (l :: ls) = .ok (false, l :: ls)) ∧
        (val ≠ newV → upd_lines newV b (l :: ls) =
          .ok (true, (l :: ls).set i
            (pre ++ '\"' :: newV ++ '\"' :: (suf ++ ending))))) := by
  constructor
  · intro hf
    rw [hfind] at hf
    rcases hrf : find_version_line bN ls with _ | p
    · rw [hupd, ih.1 hrf]
    · rw [hrf] at hf
      exact Option.noConfusion hf
  · intro i pre val suf h
    rw [hfind] at h
    rcases hrf : find_version_line bN ls with _ | ⟨i0, r⟩
    · rw [hrf] at h
      exact Option.noConfusion h
    · rw [hrf] at h
      have h2 := Option.some.inj h
      rw [Prod.mk.injEq] at h2
      obtain ⟨hi, hr⟩ := h2
      subst hi
      subst hr
      obtain ⟨ending, hget, hrn, hws, hunch, hch⟩ := ih.2 i0 pre val suf hrf
      refine ⟨ending, ?_, hrn, hws, ?_, ?_⟩
      · simpa using hget
      · intro hv
        rw [hupd, hunch hv]
      · intro hv
        rw [hupd, hch hv]
        rfl

theorem upd_lines_spec (newV : List Char) (ls : List (List Char)) :
    ∀ b : Bool,
    (find_version_line b ls = none → upd_lines newV b ls = .error ()) ∧
    (∀ i pre val suf, find_version_line b ls = some (i, pre, val, suf) →
      ∃ ending, ls[i]? = some (pre ++ '\"' :: val ++ '\"' :: (suf ++ ending)) ∧
        (∀ c ∈ ending, rn_char c = true) ∧
        suf.all isWSChar = true ∧
        (val = newV → upd_lines newV b ls = .ok (false, ls)) ∧
        (val ≠ newV → upd_lines newV b ls =
          .ok (true, ls.set i (pre ++ '\"' :: newV ++ '\"' :: (suf ++ ending))))) := by
  induction ls with
  | nil =>
    intro b
    exact ⟨fun _ => rfl, fun i pre val suf h => Option.noConfusion h⟩
  | cons l ls ih =>
    intro b
    rcases hs : section_name l with _ | name
    · cases b
      · refine upd_lines_skip ?_ ?_ (ih false)
        · simp only [find_version_line, hs]
          rw [if_neg Bool.false_ne_true]
        · simp only [upd_lines, hs]
          rw [if_neg Bool.false_ne_true]
      · rcases hvp : version_line_parts (rstrip_rn l) with _ | ⟨pre0, val0, suf0⟩
        · refine upd_lines_skip ?_ ?_ (ih true)
          · simp only [find_version_line, hs, hvp]
            rw [if_pos trivial]
          · simp only [upd_lines, hs, hvp]
            rw [if_pos trivial]
        · have hprops := version_line_props hvp
          obtain ⟨hdec, hrn2⟩ := rstrip_rn_decomp l
          have hfind : find_version_line true (l :: ls) =
              some (0, pre0, val0, suf0) := by
            simp only [find_version_line, hs, hvp]
            rw [if_pos trivial]
          have hupd : upd_lines newV true (l :: ls) =
              (if val0 = newV then .ok (false, l :: ls)
               else .ok (true,
                 (pre0 ++ '\"' :: newV ++ '\"' ::
                   (suf0 ++ l.drop (rstrip_rn l).length)) :: ls)) := by
            simp only [upd_lines, hs, hvp]
            rw [if_pos trivial]
          constructor
          · intro hf
            rw [hfind] at hf
            exact Option.noConfusion hf
          · intro i pre val suf h
            rw [hfind] at h
            have h2 := Option.some.inj h
            rw [Prod.mk.injEq, Prod.mk.injEq, Prod.mk.injEq] at h2
            obtain ⟨hi, hp, hv, hsf⟩ := h2
            subst hi
            subst hp
            subst hv
            subst hsf
            refine ⟨l.drop (rstrip_rn l).length, ?_, hrn2, hprops.2, ?_, ?_⟩
            · simp only [List.getElem?_cons_zero, Option.some.injEq]
              conv_lhs => rw [hdec]
              rw [hprops.1]
              simp [List.append_assoc]
            · intro hv
              rw [hupd, if_pos hv]
            · intro hv
              rw [hupd, if_neg hv]
              rfl
    · refine upd_lines_skip ?_ ?_ (ih (decide (trimChars name = "project".data)))
      · simp only [find_version_line, hs]
      · simp only [upd_lines, hs]

/-- Characterization of the text-level core `update_pyproject_text`
(the line loop on the decoded text): error when no version line is in
the `[project]` section, text returned as is with flag `false` when the
quoted value already matches, and otherwise exactly that one line of the
decoded text rewritten (its prefix, trailing whitespace and terminator
kept, all other lines of the decoded text untouched). -/
theorem update_pyproject_text_spec (content newV : List Char) :
    (find_version_line false (split_keepends content) = none →
      update_pyproject_text content newV = .error ()) ∧
    (∀ i pre val suf,
      find_version_line false (split_keepends content) = some (i, pre, val, suf) →
      ∃ ending,
        (split_keepends content)[i]? =
          some (pre ++ '\"' :: val ++ '\"' :: (suf ++ ending)) ∧
        (∀ c ∈ ending, rn_char c = true) ∧
        suf.all isWSChar = true ∧
        (val = newV →
          update_pyproject_text content newV = .ok (false, content)) ∧
        (val ≠ newV →
          update_pyproject_text content newV = .ok (true,
            ((split_keepends content).set i
              (pre ++ '\"' :: newV ++ '\"' :: (suf ++ ending))).flatten) ∧
          (∀ j, j ≠ i →
            ((split_keepends content).set i
              (pre ++ '\"' :: newV ++ '\"' :: (suf ++ ending)))[j]? =
              (split_keepends content)[j]?))) := by
  obtain ⟨h1, h2⟩ := upd_lines_spec newV (split_keepends content) false
  constructor
  · intro hf
    unfold update_pyproject_text
    rw [h1 hf]
  · intro i pre val suf h
    obtain ⟨ending, hget, hrn, hws, hunch, hch⟩ := h2 i pre val suf h
    refine ⟨ending, hget, hrn, hws, ?_, ?_⟩
    · intro hv
      unfold update_pyproject_text
      rw [hunch hv]
      simp [split_keepends_flatten]
    · intro hv
      refine ⟨?_, ?_⟩
      · unfold update_pyproject_text
        rw [hch hv]
      · intro j hj
        exact List.getElem?_set_ne (Ne.symm hj)

/-- C4: the claimed frame fails on a `\r\n`-terminated file.
`read_text` (with `newline=None`) translates every `\r\n` to `\n` before
the line loop ever sees the text, and nothing restores it, so updating
`1.0.0` to `1.0.1` in `"[project]\r\nversion = \"1.0.0\"\r\n"` reports
changed but produces `"[project]\nversion = \"1.0.1\"\n"`: the untouched
first line comes out as `"[project]\n"`, not byte-identical to the
original `"[project]\r\n"`, and the version line's `\r\n` terminator is
not preserved either — contradicting the claim's terminator preservation
and its every-other-line-byte-for-byte frame. -/
theorem update_pyproject_version_crlf_failing :
    update_pyproject_version
        "[project]\r\nversion = \"1.0.0\"\r\n".data "1.0.1".data
      = .ok (true, "[project]\nversion = \"1.0.1\"\n".data) ∧
    (split_keepends "[project]\nversion = \"1.0.1\"\n".data)[0]? ≠
      (split_keepends "[project]\r\nversion = \"1.0.0\"\r\n".data)[0]? ∧
    (split_keepends "[project]\nversion = \"1.0.1\"\n".data)[1]? ≠
      some ("version = \"1.0.1\"\r\n".data) := by
  refine ⟨by rfl, by decide, by decide⟩

end Nightreign
